import Mathlib

/-
Verification of the two lock-free ring buffers of the repository:
the SPSC queue (src/queue/queue.h) and the single-writer broadcast
queue (src/broadcast/broadcast.h).

Machine integers are modelled as Nat with explicit reductions mod 2^w.
The SPSC queue is parametric in the size_t width w.  The broadcast
queue is modelled in its wide variant (64-bit brdct_t, 33-bit tail
field, 15-bit nreaders/ncycled fields, 32-bit Reader), plus the
attach operation of the narrow variant (32-bit brdct_t, 17-bit tail,
7-bit counters, 16-bit Reader) which is needed for the overflow check.

On top of the per-operation definitions, a small operational semantics
(Op, applyOp, applyTrace, Reach) describes a writer and a family of
readers driving one broadcast queue under the contract that every
commit consumes or produces at most the length of the slice just
returned by the corresponding slice call.  Reader positions and the
producer position are carried both as the unbounded ghost counters and,
through reductions mod 2^32 / mod 2^33 at every use site, as the
machine values the code actually reads.
-/

set_option maxHeartbeats 4000000
set_option maxRecDepth 8000

namespace Common

/-- Subtraction at machine word width w: (a - b) mod 2^w, as computed by C
unsigned arithmetic on two values of that width. -/
def wsub (w a b : Nat) : Nat := (2 ^ w + a % 2 ^ w - b % 2 ^ w) % 2 ^ w

/-- The SPSC queue state: two free-running size_t counters (queue.h). -/
structure Queue where
  head : Nat
  tail : Nat
deriving DecidableEq

/-- Embedding of queue_pop (queue.h): returns (index, count).
Source: mask = (1 << k) - 1; cond = ((tail >> k) - (head >> k)) & 1;
count = tail - head - (tail & mask) * cond; index = head & mask. -/
def queue_pop (w k : Nat) (q : Queue) : Nat × Nat :=
  let cond := wsub w (q.tail / 2 ^ k) (q.head / 2 ^ k) % 2
  let count := wsub w (wsub w q.tail q.head) (q.tail % 2 ^ k * cond)
  (q.head % 2 ^ k, count)

/-- Embedding of queue_push (queue.h): returns (index, count).
Source: cond = ((tail >> k) - (head >> k)) & 1;
count = mask + 1 - (tail - head) - (head & mask) * (1 - cond);
index = tail & mask. -/
def queue_push (w k : Nat) (q : Queue) : Nat × Nat :=
  let cond := wsub w (q.tail / 2 ^ k) (q.head / 2 ^ k) % 2
  let count := wsub w (wsub w (2 ^ k) (wsub w q.tail q.head)) (q.head % 2 ^ k * (1 - cond))
  (q.tail % 2 ^ k, count)

/-- The packed broadcast state word (broadcast.h), one field per bit-field:
wide variant ranges are tail < 2^33, nreaders < 2^15, ncycled < 2^15,
hstate < 2. -/
structure Broadcast where
  tail : Nat
  nreaders : Nat
  ncycled : Nat
  hstate : Nat
deriving DecidableEq

/-- The two-segment slice handed to callers; idx[1] is implicitly 0. -/
structure Slice where
  idx0 : Nat
  cnt0 : Nat
  cnt1 : Nat
  len : Nat
deriving DecidableEq

/-- Embedding of brdct_attach_reader, wide variant.  Returns none for the
-1 overflow sentinel, otherwise the updated word and the new Reader value
(*r, a uint32_t).  Source: fails iff nreaders == ((1 << 15) - 1) >> 0;
otherwise nreaders += 1 and *r = (new.tail & -halflen) - halflen * new.hstate
with halflen = 1 << (caplg2 - 1), computed at 64-bit width and stored
into a 32-bit Reader. -/
def brdct_attach_reader (k : Nat) (b : Broadcast) : Option (Broadcast × Nat) :=
  if b.nreaders = 2 ^ 15 - 1 then none
  else
    let b2 : Broadcast := { b with nreaders := (b.nreaders + 1) % 2 ^ 15 }
    let halflen := 2 ^ (k - 1)
    let head := (b2.tail - b2.tail % halflen + (2 ^ 64 - halflen * b2.hstate)) % 2 ^ 64
    some (b2, head % 2 ^ 32)

/-- Embedding of brdct_attach_reader in the narrow variant
(BRDCT_RESIZE = 1): 32-bit brdct_t, 17-bit tail, 7-bit counters, 16-bit
Reader.  The overflow test compares nreaders with
((1 << 15) - 1) >> 1 = 16383. -/
def narrow_attach_reader (k : Nat) (b : Broadcast) : Option (Broadcast × Nat) :=
  if b.nreaders = (2 ^ 15 - 1) / 2 then none
  else
    let b2 : Broadcast := { b with nreaders := (b.nreaders + 1) % 2 ^ 7 }
    let halflen := 2 ^ (k - 1)
    let head := (b2.tail - b2.tail % halflen + (2 ^ 32 - halflen * b2.hstate)) % 2 ^ 32
    some (b2, head % 2 ^ 16)

/-- Embedding of brdct_detach_reader, wide variant.  r is the uint32_t
Reader value.  Source: nreaders -= 1; if (hstate && tail >> (k-1) ==
r >> (k-1)) ncycled -= 1;  both decrements wrap in their 15-bit fields. -/
def brdct_detach_reader (k : Nat) (b : Broadcast) (r : Nat) : Broadcast :=
  let nreaders2 := (b.nreaders + (2 ^ 15 - 1)) % 2 ^ 15
  if b.hstate ≠ 0 ∧ b.tail / 2 ^ (k - 1) = r / 2 ^ (k - 1) then
    { b with nreaders := nreaders2, ncycled := (b.ncycled + (2 ^ 15 - 1)) % 2 ^ 15 }
  else
    { b with nreaders := nreaders2 }

/-- Embedding of brdct_reader_slice, wide variant.  r is the uint32_t
Reader value; all slice arithmetic happens at 64-bit width.  Source:
cnt[0] = tail - r; if (tail >> k != r >> k) { cnt[0] -= tail & mask;
cnt[1] = tail & mask; } len = cnt[0] + cnt[1]; idx[0] = r & mask. -/
def brdct_reader_slice (k : Nat) (b : Broadcast) (r : Nat) : Slice :=
  let c0 := (2 ^ 64 + b.tail - r) % 2 ^ 64
  let c0a := if b.tail / 2 ^ k ≠ r / 2 ^ k then (c0 + (2 ^ 64 - b.tail % 2 ^ k)) % 2 ^ 64 else c0
  let c1 := if b.tail / 2 ^ k ≠ r / 2 ^ k then b.tail % 2 ^ k else 0
  { idx0 := r % 2 ^ k, cnt0 := c0a, cnt1 := c1, len := (c0a + c1) % 2 ^ 64 }

/-- Embedding of brdct_reader_commit, wide variant, with the consumed
count n = s->len - (s->cnt[0] + s->cnt[1]) passed directly.  Returns the
updated word and the updated uint32_t Reader value.  Source: *r += count;
if (*r >> (k-1) != prev >> (k-1)) ncycled += 1. -/
def brdct_reader_commit (k : Nat) (b : Broadcast) (r n : Nat) : Broadcast × Nat :=
  let r2 := (r + n) % 2 ^ 32
  if r2 / 2 ^ (k - 1) = r / 2 ^ (k - 1) then (b, r2)
  else ({ b with ncycled := (b.ncycled + 1) % 2 ^ 15 }, r2)

/-- The derived head pointer as computed at 64-bit width by broadcast.h:
(tail & -halflen) - halflen * hstate with halflen = 1 << (caplg2 - 1). -/
def whead (k tailv hs : Nat) : Nat :=
  (tailv - tailv % 2 ^ (k - 1) + (2 ^ 64 - 2 ^ (k - 1) * hs)) % 2 ^ 64

/-- The slice computation of brdct_writer_slice from a tail field value and
an hstate bit.  Source: head as in whead;
cnt[0] = mask + 1 - (tail - head); if (tail >> k == head >> k)
{ cnt[0] -= head & mask; cnt[1] = head & mask; } len = cnt[0]+cnt[1];
if (tail + len - head == 1 << k) { len -= 1; cnt[1] ? cnt[1] -= 1 :
(cnt[0] ? cnt[0] -= 1 : 0); }  idx[0] = tail & mask. -/
def wslice_of (k tailv hs : Nat) : Slice :=
  let head := whead k tailv hs
  let c0 := (2 ^ k + (2 ^ 64 - (2 ^ 64 + tailv - head) % 2 ^ 64)) % 2 ^ 64
  let c0a := if tailv / 2 ^ k = head / 2 ^ k then (c0 + (2 ^ 64 - head % 2 ^ k)) % 2 ^ 64 else c0
  let c1 := if tailv / 2 ^ k = head / 2 ^ k then head % 2 ^ k else 0
  let len := (c0a + c1) % 2 ^ 64
  if (tailv + len + (2 ^ 64 - head)) % 2 ^ 64 = 2 ^ k then
    { idx0 := tailv % 2 ^ k,
      cnt0 := if 0 < c1 then c0a else if 0 < c0a then c0a - 1 else c0a,
      cnt1 := if 0 < c1 then c1 - 1 else c1,
      len := (len + (2 ^ 64 - 1)) % 2 ^ 64 }
  else
    { idx0 := tailv % 2 ^ k, cnt0 := c0a, cnt1 := c1, len := len }

/-- Embedding of brdct_writer_slice, wide variant: the CAS loop body
(reset of ncycled/hstate when nreaders > 0 and ncycled >= nreaders) plus
the slice computation wslice_of from the resulting word.
Returns (new word, slice). -/
def brdct_writer_slice (k : Nat) (b : Broadcast) : Broadcast × Slice :=
  let b2 := if b.nreaders = 0 ∨ b.ncycled < b.nreaders then b
            else { b with ncycled := 0, hstate := 0 }
  (b2, wslice_of k b2.tail b2.hstate)

/-- Embedding of brdct_writer_commit, wide variant, with the produced
count n = s->len - (s->cnt[0] + s->cnt[1]) passed directly.  Source:
tail += count (wrapping in the 33-bit field);
if (new tail >> (k-1) != old tail >> (k-1)) hstate = 1. -/
def brdct_writer_commit (k : Nat) (b : Broadcast) (n : Nat) : Broadcast :=
  let tail2 := (b.tail + n) % 2 ^ 33
  if tail2 / 2 ^ (k - 1) ≠ b.tail / 2 ^ (k - 1) then
    { b with tail := tail2, hstate := 1 }
  else
    { b with tail := tail2 }

/-- Per-reader state of the operational semantics: the unbounded ghost
position gr (the uint32_t value the code stores is gr mod 2^32) and the
length of the last slice returned to this reader, if not yet committed. -/
structure RState where
  gr : Nat
  pend : Option Nat
deriving DecidableEq

/-- A configuration of one broadcast queue together with its clients:
the ghost producer position gtail (the 33-bit field holds gtail mod 2^33),
the remaining fields of the packed word, the attached readers in attach
order, and the length of the writer's last uncommitted slice. -/
structure Config where
  gtail : Nat
  nreaders : Nat
  ncycled : Nat
  hstate : Nat
  readers : List RState
  wpend : Option Nat
deriving DecidableEq

/-- The packed machine word corresponding to a configuration. -/
def machineB (c : Config) : Broadcast :=
  { tail := c.gtail % 2 ^ 33, nreaders := c.nreaders, ncycled := c.ncycled, hstate := c.hstate }

/-- One client action on the broadcast queue. -/
inductive Op where
  | attach
  | detach (i : Nat)
  | rslice (i : Nat)
  | rcommit (i : Nat) (n : Nat)
  | wslice
  | wcommit (n : Nat)
deriving DecidableEq

/-- The ghost value of the derived head pointer: the producer position
rounded down to a half-block boundary, minus a half block when hs = 1. -/
def ghead (k gt hs : Nat) : Nat :=
  gt - gt % 2 ^ (k - 1) - 2 ^ (k - 1) * hs

/-- Applies one action.  none encodes both a refused action (attach
overflow, a commit exceeding the slice just returned, an index naming no
attached reader) and therefore restricts traces to contract-respecting
ones.  Every machine computation is done by the corresponding operation
of broadcast.h on the projected machine values. -/
def applyOp (k : Nat) (op : Op) (c : Config) : Option Config :=
  match op with
  | .attach =>
    match brdct_attach_reader k (machineB c) with
    | none => none
    | some (b2, _) =>
      some { c with nreaders := b2.nreaders,
                    readers := c.readers ++ [{ gr := ghead k c.gtail c.hstate, pend := none }] }
  | .detach i =>
    match c.readers[i]? with
    | none => none
    | some x =>
      let b2 := brdct_detach_reader k (machineB c) (x.gr % 2 ^ 32)
      some { c with nreaders := b2.nreaders, ncycled := b2.ncycled,
                    readers := c.readers.eraseIdx i }
  | .rslice i =>
    match c.readers[i]? with
    | none => none
    | some x =>
      some { c with readers :=
        c.readers.set i { x with pend := some ((brdct_reader_slice k (machineB c) (x.gr % 2 ^ 32)).len) } }
  | .rcommit i n =>
    match c.readers[i]? with
    | none => none
    | some x =>
      match x.pend with
      | none => none
      | some L =>
        if n ≤ L then
          let bp := brdct_reader_commit k (machineB c) (x.gr % 2 ^ 32) n
          some { c with ncycled := bp.1.ncycled,
                        readers := c.readers.set i { gr := x.gr + n, pend := none } }
        else none
  | .wslice =>
    let bs := brdct_writer_slice k (machineB c)
    some { c with ncycled := bs.1.ncycled, hstate := bs.1.hstate, wpend := some bs.2.len }
  | .wcommit n =>
    match c.wpend with
    | none => none
    | some L =>
      if n ≤ L then
        let b2 := brdct_writer_commit k (machineB c) n
        some { c with gtail := c.gtail + n, hstate := b2.hstate, wpend := none }
      else none

/-- The zero-initialized broadcast queue with no clients. -/
def configInit : Config :=
  { gtail := 0, nreaders := 0, ncycled := 0, hstate := 0, readers := [], wpend := none }

/-- Runs a sequence of actions. -/
def applyTrace (k : Nat) : List Op → Config → Option Config
  | [], c => some c
  | op :: ops, c =>
    match applyOp k op c with
    | none => none
    | some c2 => applyTrace k ops c2

/-- A configuration is reachable when some contract-respecting action
sequence produces it from the zero-initialized state. -/
def Reach (k : Nat) (c : Config) : Prop :=
  ∃ ops : List Op, applyTrace k ops configInit = some c

/-- Whether a reader position counts as cycled: its ghost position has
reached the half-block of the producer position gt. -/
def cycledP (k gt : Nat) (x : RState) : Bool :=
  decide (gt - gt % 2 ^ (k - 1) ≤ x.gr)

/-- The inductive protocol invariant, asserted of configurations whose
ghost producer position is still below the Reader wrap at 2^32. -/
structure INV (k : Nat) (c : Config) : Prop where
  hs_le : c.hstate ≤ 1
  hs_tail : c.hstate = 1 → 2 ^ (k - 1) ≤ c.gtail
  nr_eq : c.nreaders = c.readers.length
  nr_le : c.readers.length ≤ 2 ^ 15 - 1
  r_lb : ∀ x ∈ c.readers, ghead k c.gtail c.hstate ≤ x.gr
  r_ub : ∀ x ∈ c.readers, x.gr ≤ c.gtail
  r_pend : ∀ x ∈ c.readers, ∀ L, x.pend = some L → x.gr + L ≤ c.gtail
  w_pend : ∀ L, c.wpend = some L → c.gtail + L + 1 ≤ ghead k c.gtail c.hstate + 2 ^ k
  census : c.ncycled = if c.hstate = 0 then 0 else c.readers.countP (cycledP k c.gtail)

/-- A nine-action trace at caplg2 = 32 that drives the wide-variant
queue to tail = 2^32 + 2^31 - 1 with one fully caught-up reader whose
33-bit tail minus 32-bit Reader machine difference equals 2^32. -/
def trace9 : List Op :=
  [Op.attach, Op.wslice, Op.wcommit (2 ^ 32 - 1), Op.rslice 0, Op.rcommit 0 (2 ^ 32 - 1),
   Op.wslice, Op.wcommit (2 ^ 31), Op.rslice 0, Op.rcommit 0 (2 ^ 31)]

/-- The configuration reached by trace9. -/
def cfg9 : Config :=
  { gtail := 2 ^ 32 + 2 ^ 31 - 1, nreaders := 1, ncycled := 1, hstate := 1,
    readers := [{ gr := 2 ^ 32 + 2 ^ 31 - 1, pend := none }], wpend := none }

/-- Three more actions: a writer slice that resets hstate, then a reader
slice whose machine length is the phantom 2^32, and a one-element commit
of it, which increments ncycled while hstate = 0. -/
def trace12 : List Op :=
  trace9 ++ [Op.wslice, Op.rslice 0, Op.rcommit 0 1]

/-- The configuration reached by trace12. -/
def cfg12 : Config :=
  { gtail := 2 ^ 32 + 2 ^ 31 - 1, nreaders := 1, ncycled := 1, hstate := 0,
    readers := [{ gr := 2 ^ 32 + 2 ^ 31, pend := none }], wpend := some (2 ^ 31) }

/-- The configuration reached by a single attach at caplg2 = 3: one
reader positioned at the derived head 0. -/
def cfgA : Config :=
  { gtail := 0, nreaders := 1, ncycled := 0, hstate := 0,
    readers := [{ gr := 0, pend := none }], wpend := none }

/-! Arithmetic helpers about machine wrap-around and alignment. -/

theorem wrap_eval (M a b : Nat) (hb : b ≤ a) (h : a - b < M) : (M + a - b) % M = a - b := by
  rw [show M + a - b = M + (a - b) by omega, Nat.add_mod_left, Nat.mod_eq_of_lt h]

theorem wsub_eval (w a b : Nat) (ha : a < 2 ^ w) (hb : b ≤ a) : wsub w a b = a - b := by
  unfold wsub
  rw [Nat.mod_eq_of_lt ha, Nat.mod_eq_of_lt (lt_of_le_of_lt hb ha)]
  exact wrap_eval _ _ _ hb (lt_of_le_of_lt (Nat.sub_le a b) ha)

theorem wsub_eval_wrap (w a b : Nat) (hab : a < b) (hb : b < 2 ^ w) : wsub w a b = 2 ^ w + a - b := by
  unfold wsub
  rw [Nat.mod_eq_of_lt (lt_trans hab hb), Nat.mod_eq_of_lt hb, Nat.mod_eq_of_lt (by omega)]

theorem aligned_eq_mul (H x : Nat) : x - x % H = H * (x / H) :=
  Nat.sub_eq_of_eq_add (Nat.div_add_mod x H).symm

theorem aligned_dvd (H x : Nat) : H ∣ x - x % H :=
  ⟨x / H, aligned_eq_mul H x⟩

theorem aligned_le (H x : Nat) : x - x % H ≤ x := Nat.sub_le _ _

theorem lt_aligned_add (H x : Nat) (hH : 0 < H) : x < x - x % H + H := by
  have h1 := Nat.mod_lt x hH
  have h2 := Nat.mod_le x H
  omega

theorem div_eq_div_iff_aligned (H a b : Nat) (hH : 0 < H) (hab : a ≤ b) :
    a / H = b / H ↔ b - b % H ≤ a := by
  rw [aligned_eq_mul]
  constructor
  · intro h
    rw [← h, Nat.mul_comm]
    exact Nat.div_mul_le_self a H
  · intro h
    have h1 : b / H ≤ a / H := (Nat.le_div_iff_mul_le hH).mpr (by rw [Nat.mul_comm]; exact h)
    have h2 : a / H ≤ b / H := Nat.div_le_div_right hab
    omega

theorem aligned_eq_of_between (H A y : Nat) (hA : H ∣ A) (h1 : A ≤ y) (h2 : y < A + H) :
    y - y % H = A := by
  have h4 : y % H = (y - A) % H := by
    conv_lhs => rw [show y = A + (y - A) by omega]
    obtain ⟨q, hq⟩ := hA
    rw [hq, Nat.mul_add_mod]
  have h5 : (y - A) % H = y - A := Nat.mod_eq_of_lt (by omega)
  omega

theorem mod_eq_sub_of_between (Hm A y : Nat) (hA : Hm ∣ A) (h1 : A ≤ y) (h2 : y < A + Hm) :
    y % Hm = y - A := by
  have h3 := aligned_eq_of_between Hm A y hA h1 h2
  have h4 := Nat.mod_le y Hm
  omega

theorem dvd_add_le (H A B : Nat) (hA : H ∣ A) (hB : H ∣ B) (h : A < B) : A + H ≤ B := by
  obtain ⟨a, ha⟩ := hA
  obtain ⟨b, hb⟩ := hB
  subst ha hb
  have hab : a < b := lt_of_mul_lt_mul_left h (Nat.zero_le H)
  calc H * a + H = H * (a + 1) := by ring
  _ ≤ H * b := Nat.mul_le_mul_left H hab

theorem aligned_mono (H a b : Nat) (hab : a ≤ b) : a - a % H ≤ b - b % H := by
  rw [aligned_eq_mul, aligned_eq_mul]
  exact Nat.mul_le_mul_left H (Nat.div_le_div_right hab)

theorem div_eq_of_aligned_between (H A y : Nat) (hA : H ∣ A) (h1 : A ≤ y)
    (h2 : y < A + H) : H * (y / H) = A := by
  rw [← aligned_eq_mul]
  exact aligned_eq_of_between H A y hA h1 h2

/-! List helpers about indexed removal and replacement. -/

theorem getElem?_mem {α : Type} : ∀ (l : List α) (i : Nat) (x : α), l[i]? = some x → x ∈ l := by
  intro l
  induction l with
  | nil => intro i x h; simp at h
  | cons a t ih =>
    intro i x h
    cases i with
    | zero => simp at h; simp [h]
    | succ j =>
      rw [List.getElem?_cons_succ] at h
      exact List.mem_cons_of_mem a (ih j x h)

theorem countP_eraseIdx (p : α → Bool) :
    ∀ (l : List α) (i : Nat) (x : α), l[i]? = some x →
      (l.eraseIdx i).countP p + (if p x then 1 else 0) = l.countP p := by
  intro l
  induction l with
  | nil => intro i x h; simp at h
  | cons a t ih =>
    intro i x h
    cases i with
    | zero =>
      simp at h
      rw [List.eraseIdx_cons_zero, List.countP_cons, h]
    | succ j =>
      rw [List.getElem?_cons_succ] at h
      rw [List.eraseIdx_cons_succ, List.countP_cons, List.countP_cons]
      have := ih j x h
      omega

theorem countP_set (p : α → Bool) :
    ∀ (l : List α) (i : Nat) (x y : α), l[i]? = some x →
      (l.set i y).countP p + (if p x then 1 else 0) = l.countP p + (if p y then 1 else 0) := by
  intro l
  induction l with
  | nil => intro i x y h; simp at h
  | cons a t ih =>
    intro i x y h
    cases i with
    | zero =>
      simp at h
      rw [List.set_cons_zero, List.countP_cons, List.countP_cons, h]
      omega
    | succ j =>
      rw [List.getElem?_cons_succ] at h
      rw [List.set_cons_succ, List.countP_cons, List.countP_cons]
      have := ih j x y h
      omega

theorem length_eraseIdx (l : List α) (i : Nat) (x : α) (h : l[i]? = some x) :
    (l.eraseIdx i).length + 1 = l.length := by
  induction l generalizing i with
  | nil => simp at h
  | cons a t ih =>
    cases i with
    | zero => simp
    | succ j =>
      rw [List.getElem?_cons_succ] at h
      rw [List.eraseIdx_cons_succ]
      simp only [List.length_cons]
      rw [← ih j h]

theorem countP_congr (p q : α → Bool) :
    ∀ l : List α, (∀ x ∈ l, p x = q x) → l.countP p = l.countP q := by
  intro l
  induction l with
  | nil => intro h; rfl
  | cons a t ih =>
    intro h
    rw [List.countP_cons, List.countP_cons, h a (List.mem_cons_self a t),
      ih (fun x hx => h x (List.mem_cons_of_mem a hx))]

theorem mem_eraseIdx {α : Type} : ∀ (l : List α) (i : Nat) (x : α), x ∈ l.eraseIdx i → x ∈ l := by
  intro l
  induction l with
  | nil => intro i x h; simp [List.eraseIdx] at h
  | cons a t ih =>
    intro i x h
    cases i with
    | zero =>
      rw [List.eraseIdx_cons_zero] at h
      exact List.mem_cons_of_mem a h
    | succ j =>
      rw [List.eraseIdx_cons_succ] at h
      rcases List.mem_cons.mp h with h1 | h1
      · simp [h1]
      · exact List.mem_cons_of_mem a (ih j x h1)

/-! The SPSC queue: characterization of queue_pop and queue_push. -/

theorem queue_core (w k a t : Nat) (hk : k < w) (ha : a < 2 ^ w) (ht : t < 2 ^ w)
    (hd : wsub w t a ≤ 2 ^ k) :
    (wsub w (t / 2 ^ k) (a / 2 ^ k) % 2 = 0 ∧ a % 2 ^ k + wsub w t a < 2 ^ k ∧
       t % 2 ^ k = a % 2 ^ k + wsub w t a) ∨
    (wsub w (t / 2 ^ k) (a / 2 ^ k) % 2 = 1 ∧ 2 ^ k ≤ a % 2 ^ k + wsub w t a ∧
       t % 2 ^ k + 2 ^ k = a % 2 ^ k + wsub w t a) := by
  have hC : 0 < 2 ^ k := Nat.pos_pow_of_pos k (by norm_num)
  have hCM : 2 ^ k < 2 ^ w := Nat.pow_lt_pow_right (by norm_num) hk
  have hMprod : 2 ^ w = 2 ^ k * 2 ^ (w - k) := by
    rw [← pow_add]
    congr 1
    omega
  have hamod := Nat.mod_lt a hC
  rcases le_or_lt a t with hle | hlt
  · -- no wrap of the counters: diff = t - a
    have hdiff : wsub w t a = t - a := wsub_eval w t a ht hle
    rw [hdiff] at hd ⊢
    set P := 2 ^ k * (a / 2 ^ k) with hP
    have h1 : P + a % 2 ^ k = a := by rw [hP]; exact Nat.div_add_mod a (2 ^ k)
    set z := a % 2 ^ k + (t - a) with hz
    have h2 : t = P + z := by omega
    have he : z / 2 ^ k ≤ 1 := by
      have h3 : z / 2 ^ k < 2 := (Nat.div_lt_iff_lt_mul hC).mpr (by omega)
      omega
    have hb : t / 2 ^ k = a / 2 ^ k + z / 2 ^ k := by
      rw [h2, hP, Nat.mul_add_div hC]
    have ht0 : t % 2 ^ k = z % 2 ^ k := by
      rw [h2, hP, Nat.mul_add_mod]
    have hcond : wsub w (t / 2 ^ k) (a / 2 ^ k) = z / 2 ^ k := by
      rw [wsub_eval w _ _ (lt_of_le_of_lt (Nat.div_le_self t _) ht) (Nat.div_le_div_right hle),
        hb, Nat.add_sub_cancel_left]
    rcases Nat.le_one_iff_eq_zero_or_eq_one.mp he with he0 | he1
    · left
      have hzlt : z < 2 ^ k := (Nat.div_eq_zero_iff hC).mp he0
      refine ⟨?_, hzlt, ?_⟩
      · rw [hcond, he0]
      · rw [ht0, Nat.mod_eq_of_lt hzlt]
    · right
      have hge : 2 ^ k ≤ z := by
        have h4 : 1 * 2 ^ k ≤ z := (Nat.le_div_iff_mul_le hC).mp (by omega)
        omega
      refine ⟨?_, hge, ?_⟩
      · rw [hcond, he1]
      · rw [ht0, Nat.mod_eq_sub_mod hge, Nat.mod_eq_of_lt (by omega)]
        omega
  · -- the counters have wrapped: diff = 2^w + t - a
    have hdiff : wsub w t a = 2 ^ w + t - a := wsub_eval_wrap w t a hlt ha
    rw [hdiff] at hd ⊢
    set D := 2 ^ (w - k) with hDdef
    have hD2 : 2 ≤ D := by
      rw [hDdef]
      calc 2 = 2 ^ 1 := by norm_num
      _ ≤ 2 ^ (w - k) := Nat.pow_le_pow_right (by norm_num) (by omega)
    set P := 2 ^ k * (D - 1) with hP
    have hPC : P + 2 ^ k = 2 ^ w := by
      rw [hP, hMprod, ← Nat.mul_succ]
      congr 1
      omega
    have haP : P ≤ a := by omega
    have ha_div : a / 2 ^ k = D - 1 := by
      have hlo : D - 1 ≤ a / 2 ^ k :=
        (Nat.le_div_iff_mul_le hC).mpr (by rw [Nat.mul_comm, ← hP]; omega)
      have hhi : a / 2 ^ k < D :=
        (Nat.div_lt_iff_lt_mul hC).mpr (by rw [Nat.mul_comm, ← hMprod]; omega)
      omega
    have h1 : P + a % 2 ^ k = a := by
      have h5 := Nat.div_add_mod a (2 ^ k)
      rw [ha_div] at h5
      rw [hP]
      exact h5
    have ht_lt : t < 2 ^ k := by omega
    have ht_div : t / 2 ^ k = 0 := Nat.div_eq_of_lt ht_lt
    have ht0 : t % 2 ^ k = t := Nat.mod_eq_of_lt ht_lt
    right
    have hDM : D - 1 < 2 ^ w := by
      have h6 : D ≤ 2 ^ w := by
        rw [hDdef]
        exact Nat.pow_le_pow_right (by norm_num) (by omega)
      omega
    have hcond : wsub w (t / 2 ^ k) (a / 2 ^ k) = 2 ^ w - (D - 1) := by
      rw [ht_div, ha_div]
      unfold wsub
      rw [Nat.zero_mod, Nat.mod_eq_of_lt hDM,
        Nat.mod_eq_of_lt (show 2 ^ w + 0 - (D - 1) < 2 ^ w by omega)]
      omega
    refine ⟨?_, by omega, by omega⟩
    rw [hcond]
    have hM2 : 2 ^ w = 2 * 2 ^ (w - 1) := by
      rw [← pow_succ']
      congr 1
      omega
    have hD2' : D = 2 * 2 ^ (w - k - 1) := by
      rw [hDdef, ← pow_succ']
      congr 1
      omega
    omega

theorem queue_pop_char (w k : Nat) (q : Queue) (hk : k < w) (ha : q.head < 2 ^ w)
    (ht : q.tail < 2 ^ w) (hd : wsub w q.tail q.head ≤ 2 ^ k) :
    queue_pop w k q =
      (q.head % 2 ^ k, min (wsub w q.tail q.head) (2 ^ k - q.head % 2 ^ k)) := by
  have hC : 0 < 2 ^ k := Nat.pos_pow_of_pos k (by norm_num)
  have hCM : 2 ^ k < 2 ^ w := Nat.pow_lt_pow_right (by norm_num) hk
  have hamod := Nat.mod_lt q.head hC
  have htmod := Nat.mod_lt q.tail hC
  have hdlt : wsub w q.tail q.head < 2 ^ w := by omega
  simp only [queue_pop]
  rcases queue_core w k q.head q.tail hk ha ht hd with ⟨hcond, hlt, ht0⟩ | ⟨hcond, hge, ht0⟩
  · rw [hcond, Nat.mul_zero, wsub_eval w _ 0 hdlt (Nat.zero_le _)]
    simp only [Nat.sub_zero, Prod.mk.injEq, true_and]
    omega
  · rw [hcond, Nat.mul_one, wsub_eval w _ _ hdlt (by omega)]
    simp only [Prod.mk.injEq, true_and]
    omega

theorem queue_push_char (w k : Nat) (q : Queue) (hk : k < w) (ha : q.head < 2 ^ w)
    (ht : q.tail < 2 ^ w) (hd : wsub w q.tail q.head ≤ 2 ^ k) :
    queue_push w k q =
      (q.tail % 2 ^ k, min (2 ^ k - wsub w q.tail q.head) (2 ^ k - q.tail % 2 ^ k)) := by
  have hC : 0 < 2 ^ k := Nat.pos_pow_of_pos k (by norm_num)
  have hCM : 2 ^ k < 2 ^ w := Nat.pow_lt_pow_right (by norm_num) hk
  have hamod := Nat.mod_lt q.head hC
  have htmod := Nat.mod_lt q.tail hC
  have hCdiff : wsub w (2 ^ k) (wsub w q.tail q.head) = 2 ^ k - wsub w q.tail q.head :=
    wsub_eval w _ _ hCM hd
  simp only [queue_push]
  rcases queue_core w k q.head q.tail hk ha ht hd with ⟨hcond, hlt, ht0⟩ | ⟨hcond, hge, ht0⟩
  · rw [hcond, hCdiff, Nat.sub_zero, Nat.mul_one, wsub_eval w _ _ (by omega) (by omega)]
    simp only [Prod.mk.injEq, true_and]
    omega
  · rw [hcond, hCdiff, Nat.sub_self, Nat.mul_zero, wsub_eval w _ 0 (by omega) (Nat.zero_le _)]
    simp only [Nat.sub_zero, Prod.mk.injEq, true_and]
    omega

theorem wsub_eq_zero_iff (w a b : Nat) (ha : a < 2 ^ w) (hb : b < 2 ^ w) :
    wsub w a b = 0 ↔ a = b := by
  constructor
  · intro h
    rcases le_or_lt b a with h1 | h1
    · have h2 := wsub_eval w a b ha h1
      omega
    · have h2 := wsub_eval_wrap w a b h1 hb
      omega
  · intro h
    subst h
    rw [wsub_eval w a a ha le_rfl]
    omega

theorem wsub_shift (w a b d : Nat) : wsub w (a + d) (b + d) = wsub w a b := by
  unfold wsub
  have hM0 : 0 < 2 ^ w := Nat.pos_pow_of_pos w (by norm_num)
  rw [Nat.add_mod a d, Nat.add_mod b d]
  set M := 2 ^ w with hM
  set x := a % M with hxd
  set y := b % M with hyd
  set e := d % M with hed
  have hx : x < M := Nat.mod_lt a hM0
  have hy : y < M := Nat.mod_lt b hM0
  have he : e < M := Nat.mod_lt d hM0
  rcases le_or_lt M (x + e) with h1 | h1 <;> rcases le_or_lt M (y + e) with h2 | h2
  · rw [Nat.mod_eq_sub_mod h1, Nat.mod_eq_of_lt (show x + e - M < M by omega),
      Nat.mod_eq_sub_mod h2, Nat.mod_eq_of_lt (show y + e - M < M by omega)]
    congr 1
    omega
  · rw [Nat.mod_eq_sub_mod h1, Nat.mod_eq_of_lt (show x + e - M < M by omega),
      Nat.mod_eq_of_lt h2,
      show M + (x + e - M) - (y + e) = x - y by omega,
      show M + x - y = x - y + M by omega, Nat.add_mod_right]
  · rw [Nat.mod_eq_of_lt h1, Nat.mod_eq_sub_mod h2,
      Nat.mod_eq_of_lt (show y + e - M < M by omega),
      show M + (x + e) - (y + e - M) = M + x - y + M by omega, Nat.add_mod_right]
  · rw [Nat.mod_eq_of_lt h1, Nat.mod_eq_of_lt h2]
    congr 1
    omega

/-- C5: for every head and tail with (tail - head) mod 2^w in [0, C] where
C = 2^k, queue_pop returns index = head mod C and count =
min((tail - head) mod 2^w, C - head mod C), queue_push returns index =
tail mod C and count = min(C - (tail - head) mod 2^w, C - tail mod C),
and both returned pairs satisfy index + count <= C: a run crossing the end
of the array is truncated at the boundary. -/
theorem queue_slice_maximal_run (w k : Nat) (q : Queue) (hk : k < w) (hh : q.head < 2 ^ w)
    (ht : q.tail < 2 ^ w) (hd : wsub w q.tail q.head ≤ 2 ^ k) :
    queue_pop w k q = (q.head % 2 ^ k, min (wsub w q.tail q.head) (2 ^ k - q.head % 2 ^ k)) ∧
    queue_push w k q =
      (q.tail % 2 ^ k, min (2 ^ k - wsub w q.tail q.head) (2 ^ k - q.tail % 2 ^ k)) ∧
    (queue_pop w k q).1 + (queue_pop w k q).2 ≤ 2 ^ k ∧
    (queue_push w k q).1 + (queue_push w k q).2 ≤ 2 ^ k := by
  have hC : 0 < 2 ^ k := Nat.pos_pow_of_pos k (by norm_num)
  have hamod := Nat.mod_lt q.head hC
  have htmod := Nat.mod_lt q.tail hC
  have h1 := queue_pop_char w k q hk hh ht hd
  have h2 := queue_push_char w k q hk hh ht hd
  refine ⟨h1, h2, ?_, ?_⟩
  · rw [h1]
    dsimp only
    omega
  · rw [h2]
    dsimp only
    omega

/-- Witness for C5 at w = 64, k = 2, head = 5, tail = 7. -/
theorem queue_slice_maximal_run_witness :
    wsub 64 7 5 ≤ 2 ^ 2 ∧
    (queue_pop 64 2 ⟨5, 7⟩ = (5 % 2 ^ 2, min (wsub 64 7 5) (2 ^ 2 - 5 % 2 ^ 2)) ∧
     queue_push 64 2 ⟨5, 7⟩ = (7 % 2 ^ 2, min (2 ^ 2 - wsub 64 7 5) (2 ^ 2 - 7 % 2 ^ 2)) ∧
     (queue_pop 64 2 ⟨5, 7⟩).1 + (queue_pop 64 2 ⟨5, 7⟩).2 ≤ 2 ^ 2 ∧
     (queue_push 64 2 ⟨5, 7⟩).1 + (queue_push 64 2 ⟨5, 7⟩).2 ≤ 2 ^ 2) :=
  ⟨by decide,
   queue_slice_maximal_run 64 2 ⟨5, 7⟩ (by decide) (by decide) (by decide) (by decide)⟩

/-- C6: for every head and tail with (tail - head) mod 2^w in [0, C],
queue_pop reports count 0 exactly when head = tail (empty), and queue_push
reports count 0 exactly when (tail - head) mod 2^w = C (full). -/
theorem queue_empty_full_iff (w k : Nat) (q : Queue) (hk : k < w) (hh : q.head < 2 ^ w)
    (ht : q.tail < 2 ^ w) (hd : wsub w q.tail q.head ≤ 2 ^ k) :
    ((queue_pop w k q).2 = 0 ↔ q.head = q.tail) ∧
    ((queue_push w k q).2 = 0 ↔ wsub w q.tail q.head = 2 ^ k) := by
  have hC : 0 < 2 ^ k := Nat.pos_pow_of_pos k (by norm_num)
  have hamod := Nat.mod_lt q.head hC
  have htmod := Nat.mod_lt q.tail hC
  have h1 := queue_pop_char w k q hk hh ht hd
  have h2 := queue_push_char w k q hk hh ht hd
  have h3 := wsub_eq_zero_iff w q.tail q.head ht hh
  constructor
  · rw [h1]
    dsimp only
    constructor
    · intro h4
      exact (h3.mp (by omega)).symm
    · intro h4
      have h5 : wsub w q.tail q.head = 0 := h3.mpr h4.symm
      omega
  · rw [h2]
    dsimp only
    omega

/-- Witness for C6 at w = 64, k = 2, head = 5, tail = 7. -/
theorem queue_empty_full_iff_witness :
    wsub 64 7 5 ≤ 2 ^ 2 ∧
    (((queue_pop 64 2 ⟨5, 7⟩).2 = 0 ↔ (5 : Nat) = 7) ∧
     ((queue_push 64 2 ⟨5, 7⟩).2 = 0 ↔ wsub 64 7 5 = 2 ^ 2)) :=
  ⟨by decide, queue_empty_full_iff 64 2 ⟨5, 7⟩ (by decide) (by decide) (by decide) (by decide)⟩

/-- C8: shifting both counters by any multiple of C = 2^k (mod 2^w) leaves
the results of queue_pop and queue_push unchanged, so the queue stays
correct when head and tail wrap past SIZE_MAX. -/
theorem queue_wrap_shift_invariant (w k : Nat) (q : Queue) (d : Nat) (hk : k < w)
    (hh : q.head < 2 ^ w) (ht : q.tail < 2 ^ w) (hd : wsub w q.tail q.head ≤ 2 ^ k)
    (hdvd : 2 ^ k ∣ d) :
    queue_pop w k ⟨(q.head + d) % 2 ^ w, (q.tail + d) % 2 ^ w⟩ = queue_pop w k q ∧
    queue_push w k ⟨(q.head + d) % 2 ^ w, (q.tail + d) % 2 ^ w⟩ = queue_push w k q := by
  have hM0 : 0 < 2 ^ w := Nat.pos_pow_of_pos w (by norm_num)
  have hCM : 2 ^ k ∣ 2 ^ w := pow_dvd_pow 2 (le_of_lt hk)
  have hdiff : wsub w ((q.tail + d) % 2 ^ w) ((q.head + d) % 2 ^ w) = wsub w q.tail q.head := by
    have h0 : wsub w ((q.tail + d) % 2 ^ w) ((q.head + d) % 2 ^ w) =
        wsub w (q.tail + d) (q.head + d) := by
      unfold wsub
      rw [Nat.mod_mod_of_dvd _ dvd_rfl, Nat.mod_mod_of_dvd _ dvd_rfl]
    rw [h0, wsub_shift]
  have hhead : (q.head + d) % 2 ^ w % 2 ^ k = q.head % 2 ^ k := by
    obtain ⟨m, rfl⟩ := hdvd
    rw [Nat.mod_mod_of_dvd _ hCM, Nat.add_mul_mod_self_left]
  have htail : (q.tail + d) % 2 ^ w % 2 ^ k = q.tail % 2 ^ k := by
    obtain ⟨m, rfl⟩ := hdvd
    rw [Nat.mod_mod_of_dvd _ hCM, Nat.add_mul_mod_self_left]
  have hh' : (q.head + d) % 2 ^ w < 2 ^ w := Nat.mod_lt _ hM0
  have ht' : (q.tail + d) % 2 ^ w < 2 ^ w := Nat.mod_lt _ hM0
  have h1 := queue_pop_char w k ⟨(q.head + d) % 2 ^ w, (q.tail + d) % 2 ^ w⟩ hk hh' ht'
    (by rw [hdiff]; exact hd)
  have h2 := queue_push_char w k ⟨(q.head + d) % 2 ^ w, (q.tail + d) % 2 ^ w⟩ hk hh' ht'
    (by rw [hdiff]; exact hd)
  have h3 := queue_pop_char w k q hk hh ht hd
  have h4 := queue_push_char w k q hk hh ht hd
  dsimp only at h1 h2
  rw [hdiff] at h1 h2
  rw [h1, h2, h3, h4, hhead, htail]
  exact ⟨rfl, rfl⟩

/-- Witness for C8 at w = 64, k = 2, head = tail = 2^64 - 2, d = 4:
the shifted state wraps past SIZE_MAX. -/
theorem queue_wrap_shift_invariant_witness :
    wsub 64 (2 ^ 64 - 2) (2 ^ 64 - 2) ≤ 2 ^ 2 ∧
    (queue_pop 64 2 ⟨(2 ^ 64 - 2 + 4) % 2 ^ 64, (2 ^ 64 - 2 + 4) % 2 ^ 64⟩ =
       queue_pop 64 2 ⟨2 ^ 64 - 2, 2 ^ 64 - 2⟩ ∧
     queue_push 64 2 ⟨(2 ^ 64 - 2 + 4) % 2 ^ 64, (2 ^ 64 - 2 + 4) % 2 ^ 64⟩ =
       queue_push 64 2 ⟨2 ^ 64 - 2, 2 ^ 64 - 2⟩) :=
  ⟨by decide,
   queue_wrap_shift_invariant 64 2 ⟨2 ^ 64 - 2, 2 ^ 64 - 2⟩ 4 (by decide) (by decide) (by decide)
     (by decide) (by decide)⟩

/-! The broadcast queue: evaluation and characterization of the slice
operations. -/

theorem brdct_reader_slice_of_eq (k : Nat) (b : Broadcast) (r : Nat)
    (h : b.tail / 2 ^ k = r / 2 ^ k) :
    brdct_reader_slice k b r =
      { idx0 := r % 2 ^ k, cnt0 := (2 ^ 64 + b.tail - r) % 2 ^ 64, cnt1 := 0,
        len := ((2 ^ 64 + b.tail - r) % 2 ^ 64 + 0) % 2 ^ 64 } := by
  have h2 : ¬ (b.tail / 2 ^ k ≠ r / 2 ^ k) := by simpa using h
  simp only [brdct_reader_slice, if_neg h2]

theorem brdct_reader_slice_of_ne (k : Nat) (b : Broadcast) (r : Nat)
    (h : b.tail / 2 ^ k ≠ r / 2 ^ k) :
    brdct_reader_slice k b r =
      { idx0 := r % 2 ^ k,
        cnt0 := ((2 ^ 64 + b.tail - r) % 2 ^ 64 + (2 ^ 64 - b.tail % 2 ^ k)) % 2 ^ 64,
        cnt1 := b.tail % 2 ^ k,
        len := (((2 ^ 64 + b.tail - r) % 2 ^ 64 + (2 ^ 64 - b.tail % 2 ^ k)) % 2 ^ 64 +
          b.tail % 2 ^ k) % 2 ^ 64 } := by
  simp only [brdct_reader_slice, if_pos h]

theorem brdct_reader_slice_char (k : Nat) (b : Broadcast) (r : Nat) (hk : 1 ≤ k) (hk2 : k ≤ 33)
    (htail : b.tail < 2 ^ 33) (hr : r < 2 ^ 32)
    (hd : (2 ^ 64 + b.tail - r) % 2 ^ 64 ≤ 2 ^ k - 1) :
    r ≤ b.tail ∧
    (brdct_reader_slice k b r).len = b.tail - r ∧
    (brdct_reader_slice k b r).idx0 = r % 2 ^ k ∧
    (brdct_reader_slice k b r).idx0 + (brdct_reader_slice k b r).cnt0 ≤ 2 ^ k ∧
    (brdct_reader_slice k b r).cnt1 < 2 ^ k ∧
    (brdct_reader_slice k b r).cnt0 + (brdct_reader_slice k b r).cnt1 = b.tail - r := by
  have hC : 0 < 2 ^ k := Nat.pos_pow_of_pos k (by norm_num)
  have hC33 : 2 ^ k ≤ 2 ^ 33 := Nat.pow_le_pow_right (by norm_num) hk2
  have hrt : r ≤ b.tail := by
    by_contra hcon
    rw [Nat.mod_eq_of_lt (by omega)] at hd
    omega
  have hdiff : (2 ^ 64 + b.tail - r) % 2 ^ 64 = b.tail - r :=
    wrap_eval _ _ _ hrt (by omega)
  rw [hdiff] at hd
  have htC := Nat.mod_lt b.tail hC
  have hrC := Nat.mod_lt r hC
  by_cases hbr : b.tail / 2 ^ k = r / 2 ^ k
  · rw [brdct_reader_slice_of_eq k b r hbr]
    have hAeq : r - r % 2 ^ k = b.tail - b.tail % 2 ^ k := by
      rw [aligned_eq_mul, aligned_eq_mul, hbr]
    have hmr := Nat.mod_le r (2 ^ k)
    have hmt := Nat.mod_le b.tail (2 ^ k)
    rw [hdiff]
    dsimp only
    rw [Nat.add_zero, Nat.mod_eq_of_lt (by omega)]
    exact ⟨hrt, rfl, rfl, by omega, by omega, by omega⟩
  · rw [brdct_reader_slice_of_ne k b r hbr]
    have hAd := aligned_dvd (2 ^ k) b.tail
    have hmt := Nat.mod_le b.tail (2 ^ k)
    have hmr := Nat.mod_le r (2 ^ k)
    have hrA : r < b.tail - b.tail % 2 ^ k := by
      rcases lt_or_le r (b.tail - b.tail % 2 ^ k) with h1 | h1
      · exact h1
      · exact absurd ((div_eq_div_iff_aligned (2 ^ k) r b.tail hC hrt).mpr h1).symm hbr
    have hCA : 2 ^ k ≤ b.tail - b.tail % 2 ^ k := Nat.le_of_dvd (by omega) hAd
    have hrmod : r % 2 ^ k = r - (b.tail - b.tail % 2 ^ k - 2 ^ k) := by
      apply mod_eq_sub_of_between
      · exact Nat.dvd_sub' hAd dvd_rfl
      · omega
      · omega
    have hcnt0 : (b.tail - r + (2 ^ 64 - b.tail % 2 ^ k)) % 2 ^ 64 =
        b.tail - r - b.tail % 2 ^ k := by
      rw [show b.tail - r + (2 ^ 64 - b.tail % 2 ^ k) =
        2 ^ 64 + (b.tail - r) - b.tail % 2 ^ k by omega]
      exact wrap_eval _ _ _ (by omega) (by omega)
    rw [hdiff, hcnt0]
    dsimp only
    rw [Nat.mod_eq_of_lt (by omega)]
    exact ⟨hrt, by omega, rfl, by omega, by omega, by omega⟩

theorem wslice_of_char (k tailv hs : Nat) (hk : 1 ≤ k) (hk2 : k ≤ 33) (ht : tailv < 2 ^ 33)
    (hhs : hs ≤ 1) :
    (wslice_of k tailv hs).len = 2 ^ k - 1 - (2 ^ (k - 1) * hs + tailv % 2 ^ (k - 1)) ∧
    (wslice_of k tailv hs).idx0 = tailv % 2 ^ k ∧
    (wslice_of k tailv hs).idx0 + (wslice_of k tailv hs).cnt0 ≤ 2 ^ k ∧
    (wslice_of k tailv hs).cnt1 < 2 ^ k ∧
    (wslice_of k tailv hs).cnt0 + (wslice_of k tailv hs).cnt1 = (wslice_of k tailv hs).len := by
  have hC : 0 < 2 ^ k := Nat.pos_pow_of_pos k (by norm_num)
  have hH : 0 < 2 ^ (k - 1) := Nat.pos_pow_of_pos (k - 1) (by norm_num)
  have hC33 : 2 ^ k ≤ 2 ^ 33 := Nat.pow_le_pow_right (by norm_num) hk2
  have hH32 : 2 ^ (k - 1) ≤ 2 ^ 32 := Nat.pow_le_pow_right (by norm_num) (by omega)
  have hC2H : 2 ^ k = 2 * 2 ^ (k - 1) := by
    rw [← pow_succ']
    congr 1
    omega
  have htH := Nat.mod_lt tailv hH
  have htHle := Nat.mod_le tailv (2 ^ (k - 1))
  have htC := Nat.mod_lt tailv hC
  have htCle := Nat.mod_le tailv (2 ^ k)
  have hHC : tailv % 2 ^ (k - 1) ≤ tailv % 2 ^ k := by
    have h2 := Nat.mod_mod_of_dvd tailv (pow_dvd_pow 2 (show k - 1 ≤ k by omega))
    have h3 := Nat.mod_le (tailv % 2 ^ k) (2 ^ (k - 1))
    omega
  rcases Nat.le_one_iff_eq_zero_or_eq_one.mp hhs with rfl | rfl
  · -- hstate = 0: head = tail rounded down to a half-block boundary
    have hhead : whead k tailv 0 = tailv - tailv % 2 ^ (k - 1) := by
      unfold whead
      rw [Nat.mul_zero, Nat.sub_zero, Nat.add_mod_right, Nat.mod_eq_of_lt (by omega)]
    have hq : (2 ^ 64 + tailv - (tailv - tailv % 2 ^ (k - 1))) % 2 ^ 64 = tailv % 2 ^ (k - 1) := by
      rw [show 2 ^ 64 + tailv - (tailv - tailv % 2 ^ (k - 1)) =
        2 ^ 64 + tailv % 2 ^ (k - 1) by omega, Nat.add_mod_left, Nat.mod_eq_of_lt (by omega)]
    have hc0 : (2 ^ k + (2 ^ 64 - tailv % 2 ^ (k - 1))) % 2 ^ 64 =
        2 ^ k - tailv % 2 ^ (k - 1) := by
      rw [show 2 ^ k + (2 ^ 64 - tailv % 2 ^ (k - 1)) =
        2 ^ 64 + 2 ^ k - tailv % 2 ^ (k - 1) by omega]
      exact wrap_eval _ _ _ (by omega) (by omega)
    have hACle : tailv - tailv % 2 ^ k ≤ tailv - tailv % 2 ^ (k - 1) := by omega
    have hbr : tailv / 2 ^ k = (tailv - tailv % 2 ^ (k - 1)) / 2 ^ k :=
      ((div_eq_div_iff_aligned (2 ^ k) (tailv - tailv % 2 ^ (k - 1)) tailv hC
        (aligned_le _ _)).mpr hACle).symm
    have hheadmod : (tailv - tailv % 2 ^ (k - 1)) % 2 ^ k =
        tailv % 2 ^ k - tailv % 2 ^ (k - 1) := by
      have h3 : (tailv - tailv % 2 ^ (k - 1)) % 2 ^ k =
          tailv - tailv % 2 ^ (k - 1) - (tailv - tailv % 2 ^ k) :=
        mod_eq_sub_of_between _ _ _ (aligned_dvd _ _) hACle
          (by have := lt_aligned_add (2 ^ k) tailv hC; omega)
      omega
    have hc0a : (2 ^ k - tailv % 2 ^ (k - 1) +
        (2 ^ 64 - (tailv % 2 ^ k - tailv % 2 ^ (k - 1)))) % 2 ^ 64 =
        2 ^ k - tailv % 2 ^ k := by
      rw [show 2 ^ k - tailv % 2 ^ (k - 1) + (2 ^ 64 - (tailv % 2 ^ k - tailv % 2 ^ (k - 1))) =
        2 ^ 64 + (2 ^ k - tailv % 2 ^ (k - 1)) - (tailv % 2 ^ k - tailv % 2 ^ (k - 1)) by omega]
      rw [wrap_eval _ _ _ (by omega) (by omega)]
      omega
    have hlen : (2 ^ k - tailv % 2 ^ k + (tailv % 2 ^ k - tailv % 2 ^ (k - 1))) % 2 ^ 64 =
        2 ^ k - tailv % 2 ^ (k - 1) := by
      rw [Nat.mod_eq_of_lt (by omega)]
      omega
    have hclamp : (tailv + (2 ^ k - tailv % 2 ^ (k - 1)) +
        (2 ^ 64 - (tailv - tailv % 2 ^ (k - 1)))) % 2 ^ 64 = 2 ^ k := by
      rw [show tailv + (2 ^ k - tailv % 2 ^ (k - 1)) +
        (2 ^ 64 - (tailv - tailv % 2 ^ (k - 1))) = 2 ^ 64 + 2 ^ k by omega,
        Nat.add_mod_left, Nat.mod_eq_of_lt (by omega)]
    have hlen2 : (2 ^ k - tailv % 2 ^ (k - 1) + (2 ^ 64 - 1)) % 2 ^ 64 =
        2 ^ k - tailv % 2 ^ (k - 1) - 1 := by
      rw [show 2 ^ k - tailv % 2 ^ (k - 1) + (2 ^ 64 - 1) =
        2 ^ 64 + (2 ^ k - tailv % 2 ^ (k - 1)) - 1 by omega]
      exact wrap_eval _ _ _ (by omega) (by omega)
    simp only [wslice_of, hhead, hq, hc0, if_pos hbr, hheadmod, hc0a, hlen,
      if_pos hclamp, hlen2]
    by_cases hpos : 0 < tailv % 2 ^ k - tailv % 2 ^ (k - 1)
    · simp only [if_pos hpos]
      exact ⟨by omega, trivial, by omega, by omega, by omega⟩
    · simp only [if_neg hpos]
      have hc0pos : 0 < 2 ^ k - tailv % 2 ^ k := by omega
      simp only [if_pos hc0pos]
      exact ⟨by omega, trivial, by omega, by omega, by omega⟩
  · -- hstate = 1
    rcases lt_or_le (tailv - tailv % 2 ^ (k - 1)) (2 ^ (k - 1)) with hav | hav
    · -- the aligned tail is 0: tail is still inside the first half-block,
      -- the derived head wraps below zero at 64-bit width
      have hal0 : tailv - tailv % 2 ^ (k - 1) = 0 :=
        Nat.eq_zero_of_dvd_of_lt (aligned_dvd _ _) hav
      have htlt : tailv < 2 ^ (k - 1) := by omega
      have hhead : whead k tailv 1 = 2 ^ 64 - 2 ^ (k - 1) := by
        unfold whead
        rw [Nat.mul_one, hal0, Nat.zero_add, Nat.mod_eq_of_lt (by omega)]
      have hq : (2 ^ 64 + tailv - (2 ^ 64 - 2 ^ (k - 1))) % 2 ^ 64 =
          tailv + 2 ^ (k - 1) := by
        rw [show 2 ^ 64 + tailv - (2 ^ 64 - 2 ^ (k - 1)) = tailv + 2 ^ (k - 1) by omega,
          Nat.mod_eq_of_lt (by omega)]
      have hc0 : (2 ^ k + (2 ^ 64 - (tailv + 2 ^ (k - 1)))) % 2 ^ 64 =
          2 ^ k - (tailv + 2 ^ (k - 1)) := by
        rw [show 2 ^ k + (2 ^ 64 - (tailv + 2 ^ (k - 1))) =
          2 ^ 64 + 2 ^ k - (tailv + 2 ^ (k - 1)) by omega]
        exact wrap_eval _ _ _ (by omega) (by omega)
      have hbr : ¬ (tailv / 2 ^ k = (2 ^ 64 - 2 ^ (k - 1)) / 2 ^ k) := by
        rw [Nat.div_eq_of_lt (by omega)]
        have h5 : 0 < (2 ^ 64 - 2 ^ (k - 1)) / 2 ^ k :=
          Nat.div_pos (by omega) hC
        omega
      have hclamp : (tailv + (2 ^ k - (tailv + 2 ^ (k - 1))) +
          (2 ^ 64 - (2 ^ 64 - 2 ^ (k - 1)))) % 2 ^ 64 = 2 ^ k := by
        rw [show tailv + (2 ^ k - (tailv + 2 ^ (k - 1))) +
          (2 ^ 64 - (2 ^ 64 - 2 ^ (k - 1))) = 2 ^ k by omega,
          Nat.mod_eq_of_lt (by omega)]
      have hlen2 : (2 ^ k - (tailv + 2 ^ (k - 1)) + (2 ^ 64 - 1)) % 2 ^ 64 =
          2 ^ k - (tailv + 2 ^ (k - 1)) - 1 := by
        rw [show 2 ^ k - (tailv + 2 ^ (k - 1)) + (2 ^ 64 - 1) =
          2 ^ 64 + (2 ^ k - (tailv + 2 ^ (k - 1))) - 1 by omega]
        exact wrap_eval _ _ _ (by omega) (by omega)
      have htC2 : tailv % 2 ^ k = tailv := Nat.mod_eq_of_lt (by omega)
      have hlenmod : (2 ^ k - (tailv + 2 ^ (k - 1))) % 2 ^ 64 =
          2 ^ k - (tailv + 2 ^ (k - 1)) := Nat.mod_eq_of_lt (by omega)
      simp only [wslice_of, hhead, hq, hc0, if_neg hbr, Nat.add_zero, hlenmod,
        if_pos hclamp, hlen2]
      have hnpos : ¬ (0 : Nat) < 0 := by omega
      simp only [if_neg hnpos]
      have hc0pos : 0 < 2 ^ k - (tailv + 2 ^ (k - 1)) := by omega
      simp only [if_pos hc0pos]
      exact ⟨by omega, trivial, by omega, by omega, by omega⟩
    · -- the aligned tail is at least a half block: head = aligned - halflen
      have hhead : whead k tailv 1 =
          tailv - tailv % 2 ^ (k - 1) - 2 ^ (k - 1) := by
        unfold whead
        rw [Nat.mul_one, show tailv - tailv % 2 ^ (k - 1) + (2 ^ 64 - 2 ^ (k - 1)) =
          2 ^ 64 + (tailv - tailv % 2 ^ (k - 1)) - 2 ^ (k - 1) by omega]
        exact wrap_eval _ _ _ (by omega) (by omega)
      have hq : (2 ^ 64 + tailv - (tailv - tailv % 2 ^ (k - 1) - 2 ^ (k - 1))) % 2 ^ 64 =
          tailv % 2 ^ (k - 1) + 2 ^ (k - 1) := by
        rw [show 2 ^ 64 + tailv - (tailv - tailv % 2 ^ (k - 1) - 2 ^ (k - 1)) =
          2 ^ 64 + (tailv % 2 ^ (k - 1) + 2 ^ (k - 1)) by omega,
          Nat.add_mod_left, Nat.mod_eq_of_lt (by omega)]
      have hc0 : (2 ^ k + (2 ^ 64 - (tailv % 2 ^ (k - 1) + 2 ^ (k - 1)))) % 2 ^ 64 =
          2 ^ k - (tailv % 2 ^ (k - 1) + 2 ^ (k - 1)) := by
        rw [show 2 ^ k + (2 ^ 64 - (tailv % 2 ^ (k - 1) + 2 ^ (k - 1))) =
          2 ^ 64 + 2 ^ k - (tailv % 2 ^ (k - 1) + 2 ^ (k - 1)) by omega]
        exact wrap_eval _ _ _ (by omega) (by omega)
      rcases lt_or_le (tailv % 2 ^ k) (2 ^ (k - 1)) with hlow | hhigh
      · -- tail in the lower half of its capacity block: the head is in the
        -- previous capacity block, no second segment
        have hmodeq : tailv % 2 ^ k = tailv % 2 ^ (k - 1) := by
          have h3 := Nat.mod_mod_of_dvd tailv (pow_dvd_pow 2 (show k - 1 ≤ k by omega))
          have h4 : tailv % 2 ^ k % 2 ^ (k - 1) = tailv % 2 ^ k :=
            Nat.mod_eq_of_lt hlow
          omega
        have hACeq : tailv - tailv % 2 ^ k = tailv - tailv % 2 ^ (k - 1) := by omega
        have hbr : ¬ (tailv / 2 ^ k =
            (tailv - tailv % 2 ^ (k - 1) - 2 ^ (k - 1)) / 2 ^ k) := by
          intro hcon
          have h5 := (div_eq_div_iff_aligned (2 ^ k)
            (tailv - tailv % 2 ^ (k - 1) - 2 ^ (k - 1)) tailv hC (by omega)).mp hcon.symm
          omega
        have hclamp : (tailv + (2 ^ k - (tailv % 2 ^ (k - 1) + 2 ^ (k - 1))) +
            (2 ^ 64 - (tailv - tailv % 2 ^ (k - 1) - 2 ^ (k - 1)))) % 2 ^ 64 = 2 ^ k := by
          rw [show tailv + (2 ^ k - (tailv % 2 ^ (k - 1) + 2 ^ (k - 1))) +
            (2 ^ 64 - (tailv - tailv % 2 ^ (k - 1) - 2 ^ (k - 1))) = 2 ^ 64 + 2 ^ k by omega,
            Nat.add_mod_left, Nat.mod_eq_of_lt (by omega)]
        have hlen2 : (2 ^ k - (tailv % 2 ^ (k - 1) + 2 ^ (k - 1)) + (2 ^ 64 - 1)) % 2 ^ 64 =
            2 ^ k - (tailv % 2 ^ (k - 1) + 2 ^ (k - 1)) - 1 := by
          rw [show 2 ^ k - (tailv % 2 ^ (k - 1) + 2 ^ (k - 1)) + (2 ^ 64 - 1) =
            2 ^ 64 + (2 ^ k - (tailv % 2 ^ (k - 1) + 2 ^ (k - 1))) - 1 by omega]
          exact wrap_eval _ _ _ (by omega) (by omega)
        have hlenmod : (2 ^ k - (tailv % 2 ^ (k - 1) + 2 ^ (k - 1))) % 2 ^ 64 =
            2 ^ k - (tailv % 2 ^ (k - 1) + 2 ^ (k - 1)) := Nat.mod_eq_of_lt (by omega)
        simp only [wslice_of, hhead, hq, hc0, if_neg hbr, Nat.add_zero, hlenmod,
          if_pos hclamp, hlen2]
        have hnpos : ¬ (0 : Nat) < 0 := by omega
        simp only [if_neg hnpos]
        have hc0pos : 0 < 2 ^ k - (tailv % 2 ^ (k - 1) + 2 ^ (k - 1)) := by omega
        simp only [if_pos hc0pos]
        exact ⟨by omega, trivial, by omega, by omega, by omega⟩
      · -- tail in the upper half of its capacity block: the head is the
        -- start of the same capacity block
        have hmodeq : tailv % 2 ^ k = 2 ^ (k - 1) + tailv % 2 ^ (k - 1) := by
          have h3 := Nat.mod_mod_of_dvd tailv (pow_dvd_pow 2 (show k - 1 ≤ k by omega))
          have h4 : tailv % 2 ^ k % 2 ^ (k - 1) = tailv % 2 ^ k - 2 ^ (k - 1) := by
            rw [Nat.mod_eq_sub_mod hhigh, Nat.mod_eq_of_lt (by omega)]
          omega
        have hheq : tailv - tailv % 2 ^ (k - 1) - 2 ^ (k - 1) = tailv - tailv % 2 ^ k := by
          omega
        have hbr : tailv / 2 ^ k = (tailv - tailv % 2 ^ (k - 1) - 2 ^ (k - 1)) / 2 ^ k := by
          rw [hheq]
          exact ((div_eq_div_iff_aligned (2 ^ k) (tailv - tailv % 2 ^ k) tailv hC
            (aligned_le _ _)).mpr le_rfl).symm
        have hheadmod : (tailv - tailv % 2 ^ (k - 1) - 2 ^ (k - 1)) % 2 ^ k = 0 := by
          rw [hheq]
          exact Nat.mod_eq_zero_of_dvd (aligned_dvd _ _)
        have hc0a : (2 ^ k - (tailv % 2 ^ (k - 1) + 2 ^ (k - 1)) + (2 ^ 64 - 0)) % 2 ^ 64 =
            2 ^ k - (tailv % 2 ^ (k - 1) + 2 ^ (k - 1)) := by
          rw [Nat.sub_zero, Nat.add_mod_right, Nat.mod_eq_of_lt (by omega)]
        have hlen : (2 ^ k - (tailv % 2 ^ (k - 1) + 2 ^ (k - 1)) + 0) % 2 ^ 64 =
            2 ^ k - (tailv % 2 ^ (k - 1) + 2 ^ (k - 1)) := by
          rw [Nat.add_zero, Nat.mod_eq_of_lt (by omega)]
        have hclamp : (tailv + (2 ^ k - (tailv % 2 ^ (k - 1) + 2 ^ (k - 1))) +
            (2 ^ 64 - (tailv - tailv % 2 ^ (k - 1) - 2 ^ (k - 1)))) % 2 ^ 64 = 2 ^ k := by
          rw [show tailv + (2 ^ k - (tailv % 2 ^ (k - 1) + 2 ^ (k - 1))) +
            (2 ^ 64 - (tailv - tailv % 2 ^ (k - 1) - 2 ^ (k - 1))) = 2 ^ 64 + 2 ^ k by omega,
            Nat.add_mod_left, Nat.mod_eq_of_lt (by omega)]
        have hlen2 : (2 ^ k - (tailv % 2 ^ (k - 1) + 2 ^ (k - 1)) + (2 ^ 64 - 1)) % 2 ^ 64 =
            2 ^ k - (tailv % 2 ^ (k - 1) + 2 ^ (k - 1)) - 1 := by
          rw [show 2 ^ k - (tailv % 2 ^ (k - 1) + 2 ^ (k - 1)) + (2 ^ 64 - 1) =
            2 ^ 64 + (2 ^ k - (tailv % 2 ^ (k - 1) + 2 ^ (k - 1))) - 1 by omega]
          exact wrap_eval _ _ _ (by omega) (by omega)
        simp only [wslice_of, hhead, hq, hc0, if_pos hbr, hheadmod, hc0a, hlen,
          if_pos hclamp, hlen2]
        have hnpos : ¬ (0 : Nat) < 0 := by omega
        simp only [if_neg hnpos]
        have hc0pos : 0 < 2 ^ k - (tailv % 2 ^ (k - 1) + 2 ^ (k - 1)) := by omega
        simp only [if_pos hc0pos]
        exact ⟨by omega, trivial, by omega, by omega, by omega⟩

theorem brdct_writer_slice_fst (k : Nat) (b : Broadcast) :
    (brdct_writer_slice k b).1 =
      if b.nreaders = 0 ∨ b.ncycled < b.nreaders then b
      else { b with ncycled := 0, hstate := 0 } := rfl

theorem brdct_writer_slice_snd (k : Nat) (b : Broadcast) :
    (brdct_writer_slice k b).2 = wslice_of k b.tail (brdct_writer_slice k b).1.hstate := by
  by_cases h : b.nreaders = 0 ∨ b.ncycled < b.nreaders
  · simp only [brdct_writer_slice, if_pos h]
  · simp only [brdct_writer_slice, if_neg h]

theorem brdct_writer_slice_hstate_le (k : Nat) (b : Broadcast) (hh : b.hstate ≤ 1) :
    (brdct_writer_slice k b).1.hstate ≤ 1 := by
  rw [brdct_writer_slice_fst]
  by_cases h : b.nreaders = 0 ∨ b.ncycled < b.nreaders
  · rw [if_pos h]
    exact hh
  · rw [if_neg h]
    exact Nat.zero_le 1

/-- C10: broadcast slices stay inside the C-element payload array.  For
brdct_reader_slice this holds whenever the 64-bit machine difference
tail - r is at most C - 1; for brdct_writer_slice whenever the word is a
well-formed bit-field state (tail below 2^33, hstate a bit): the returned
Slice satisfies idx[0] + cnt[0] <= C, cnt[1] < C, and
len = cnt[0] + cnt[1] <= C - 1. -/
theorem brdct_slice_in_bounds (k : Nat) (hk : 1 ≤ k) (hk2 : k ≤ 33) :
    (∀ (b : Broadcast) (r : Nat), b.tail < 2 ^ 33 → r < 2 ^ 32 →
      (2 ^ 64 + b.tail - r) % 2 ^ 64 ≤ 2 ^ k - 1 →
      (brdct_reader_slice k b r).idx0 + (brdct_reader_slice k b r).cnt0 ≤ 2 ^ k ∧
      (brdct_reader_slice k b r).cnt1 < 2 ^ k ∧
      (brdct_reader_slice k b r).cnt0 + (brdct_reader_slice k b r).cnt1 =
        (brdct_reader_slice k b r).len ∧
      (brdct_reader_slice k b r).len ≤ 2 ^ k - 1) ∧
    (∀ b : Broadcast, b.tail < 2 ^ 33 → b.hstate ≤ 1 →
      (brdct_writer_slice k b).2.idx0 + (brdct_writer_slice k b).2.cnt0 ≤ 2 ^ k ∧
      (brdct_writer_slice k b).2.cnt1 < 2 ^ k ∧
      (brdct_writer_slice k b).2.cnt0 + (brdct_writer_slice k b).2.cnt1 =
        (brdct_writer_slice k b).2.len ∧
      (brdct_writer_slice k b).2.len ≤ 2 ^ k - 1) := by
  constructor
  · intro b r htail hr hd
    obtain ⟨h1, h2, h3, h4, h5, h6⟩ := brdct_reader_slice_char k b r hk hk2 htail hr hd
    rw [wrap_eval _ _ _ h1 (by omega)] at hd
    exact ⟨h4, h5, by omega, by omega⟩
  · intro b htail hh
    have hh2 := brdct_writer_slice_hstate_le k b hh
    obtain ⟨h1, h2, h3, h4, h5⟩ :=
      wslice_of_char k b.tail ((brdct_writer_slice k b).1.hstate) hk hk2 htail hh2
    rw [brdct_writer_slice_snd k b]
    exact ⟨h3, h4, h5, by omega⟩

/-- Witness for C10 at k = 3, a reader at r = 1 of the word
(tail = 5, nreaders = 1, ncycled = 0, hstate = 1). -/
theorem brdct_slice_in_bounds_witness :
    (2 ^ 64 + (5 : Nat) - 1) % 2 ^ 64 ≤ 2 ^ 3 - 1 ∧
    ((brdct_reader_slice 3 ⟨5, 1, 0, 1⟩ 1).idx0 + (brdct_reader_slice 3 ⟨5, 1, 0, 1⟩ 1).cnt0 ≤
        2 ^ 3 ∧
      (brdct_reader_slice 3 ⟨5, 1, 0, 1⟩ 1).cnt1 < 2 ^ 3 ∧
      (brdct_reader_slice 3 ⟨5, 1, 0, 1⟩ 1).cnt0 + (brdct_reader_slice 3 ⟨5, 1, 0, 1⟩ 1).cnt1 =
        (brdct_reader_slice 3 ⟨5, 1, 0, 1⟩ 1).len ∧
      (brdct_reader_slice 3 ⟨5, 1, 0, 1⟩ 1).len ≤ 2 ^ 3 - 1) ∧
    ((brdct_writer_slice 3 ⟨5, 1, 0, 1⟩).2.idx0 + (brdct_writer_slice 3 ⟨5, 1, 0, 1⟩).2.cnt0 ≤
        2 ^ 3 ∧
      (brdct_writer_slice 3 ⟨5, 1, 0, 1⟩).2.cnt1 < 2 ^ 3 ∧
      (brdct_writer_slice 3 ⟨5, 1, 0, 1⟩).2.cnt0 +
        (brdct_writer_slice 3 ⟨5, 1, 0, 1⟩).2.cnt1 = (brdct_writer_slice 3 ⟨5, 1, 0, 1⟩).2.len ∧
      (brdct_writer_slice 3 ⟨5, 1, 0, 1⟩).2.len ≤ 2 ^ 3 - 1) :=
  ⟨by decide,
   (brdct_slice_in_bounds 3 (by decide) (by decide)).1 ⟨5, 1, 0, 1⟩ 1 (by decide) (by decide)
     (by decide),
   (brdct_slice_in_bounds 3 (by decide) (by decide)).2 ⟨5, 1, 0, 1⟩ (by decide) (by decide)⟩

/-- C9: wide-variant counter width mismatch.  The tail field is 33 bits
while a Reader is 32 bits, and brdct_reader_slice subtracts them at
64-bit width: for every tail in [2^32, 2^33) and the caught-up reader
whose wrapped counter is r = tail mod 2^32, the returned slice has
len = 2^32 instead of 0. -/
theorem brdct_reader_slice_wrap_mismatch (k : Nat) (b : Broadcast) (hk : 1 ≤ k) (hk2 : k ≤ 33)
    (h1 : 2 ^ 32 ≤ b.tail) (h2 : b.tail < 2 ^ 33) :
    (brdct_reader_slice k b (b.tail % 2 ^ 32)).len = 2 ^ 32 := by
  have hr : b.tail % 2 ^ 32 = b.tail - 2 ^ 32 := by
    rw [Nat.mod_eq_sub_mod h1, Nat.mod_eq_of_lt (by omega)]
  have hcnt0 : (2 ^ 64 + b.tail - (b.tail - 2 ^ 32)) % 2 ^ 64 = 2 ^ 32 := by
    rw [show 2 ^ 64 + b.tail - (b.tail - 2 ^ 32) = 2 ^ 64 + 2 ^ 32 by omega, Nat.add_mod_left,
      Nat.mod_eq_of_lt (by norm_num)]
  rcases lt_or_le k 33 with hk33 | hk33
  · have hC32 : 2 ^ k ≤ 2 ^ 32 := Nat.pow_le_pow_right (by norm_num) (by omega)
    have hCpos : 0 < 2 ^ k := Nat.pos_pow_of_pos k (by norm_num)
    have htC := Nat.mod_lt b.tail hCpos
    have hP : (2 : Nat) ^ 32 = 2 ^ k * 2 ^ (32 - k) := by
      rw [← pow_add, show k + (32 - k) = 32 by omega]
    have hPpos : 0 < 2 ^ (32 - k) := Nat.pos_pow_of_pos _ (by norm_num)
    set r2 := b.tail - 2 ^ 32 with hr2
    have hbt : b.tail = 2 ^ k * 2 ^ (32 - k) + r2 := by
      rw [← hP]
      omega
    have hdiv : b.tail / 2 ^ k = 2 ^ (32 - k) + r2 / 2 ^ k := by
      rw [hbt, Nat.mul_add_div hCpos]
    have hne : b.tail / 2 ^ k ≠ r2 / 2 ^ k := by
      rw [hdiv]
      omega
    rw [hr, brdct_reader_slice_of_ne k b r2 hne]
    dsimp only
    have hc0a : (2 ^ 32 + (2 ^ 64 - b.tail % 2 ^ k)) % 2 ^ 64 = 2 ^ 32 - b.tail % 2 ^ k := by
      rw [show 2 ^ 32 + (2 ^ 64 - b.tail % 2 ^ k) = 2 ^ 64 + 2 ^ 32 - b.tail % 2 ^ k by omega]
      exact wrap_eval _ _ _ (by omega) (by omega)
    rw [hcnt0, hc0a, Nat.mod_eq_of_lt (by omega)]
    omega
  · have hk333 : k = 33 := by omega
    subst hk333
    have heq : b.tail / 2 ^ 33 = (b.tail - 2 ^ 32) / 2 ^ 33 := by
      rw [Nat.div_eq_of_lt h2, Nat.div_eq_of_lt (by omega)]
    rw [hr, brdct_reader_slice_of_eq 33 b _ heq]
    dsimp only
    rw [hcnt0, Nat.add_zero, Nat.mod_eq_of_lt (by norm_num)]

/-- Witness for C9 at k = 4 and tail = 2^32 + 5. -/
theorem brdct_reader_slice_wrap_mismatch_witness :
    2 ^ 32 ≤ 2 ^ 32 + (5 : Nat) ∧
    (brdct_reader_slice 4 ⟨2 ^ 32 + 5, 1, 0, 0⟩ ((2 ^ 32 + 5) % 2 ^ 32)).len = 2 ^ 32 :=
  ⟨by decide,
   brdct_reader_slice_wrap_mismatch 4 ⟨2 ^ 32 + 5, 1, 0, 0⟩ (by decide) (by decide) (by decide)
     (by decide)⟩

/-- C3 counterexample: at the word (tail = 4, nreaders = 0, ncycled = 0,
hstate = 1) with caplg2 = 3, brdct_writer_slice does not reset the hstate
bit: with nreaders = 0 the CAS loop breaks before the reset. -/
theorem brdct_writer_slice_no_reset_cex :
    (brdct_writer_slice 3 ⟨4, 0, 0, 1⟩).1.hstate ≠ 0 := by decide

/-- C3 amended: brdct_writer_slice leaves the state word unchanged when
nreaders = 0 (including hstate staying 1); the reset of ncycled and hstate
happens exactly when nreaders > 0 and ncycled >= nreaders. -/
theorem brdct_writer_slice_reset_char (k : Nat) (b : Broadcast) :
    (b.nreaders = 0 → (brdct_writer_slice k b).1 = b) ∧
    (b.nreaders ≠ 0 → b.nreaders ≤ b.ncycled →
      (brdct_writer_slice k b).1 = { b with ncycled := 0, hstate := 0 }) := by
  constructor
  · intro h
    rw [brdct_writer_slice_fst, if_pos (Or.inl h)]
  · intro h1 h2
    rw [brdct_writer_slice_fst, if_neg (by omega)]

/-- Witness for C3 at k = 3 and the word (4, 0, 0, 1): the state word is
returned unchanged. -/
theorem brdct_writer_slice_reset_char_witness :
    (brdct_writer_slice 3 ⟨4, 0, 0, 1⟩).1 = ⟨4, 0, 0, 1⟩ :=
  (brdct_writer_slice_reset_char 3 ⟨4, 0, 0, 1⟩).1 rfl

/-- C4 counterexample: at caplg2 = 3, word (tail = 5, nreaders = 2,
ncycled = 1, hstate = 1) and a reader at r = 4, which is in the same
half-block as tail (not the previous one), brdct_detach_reader does
decrement ncycled, contradicting the claim that only a reader in the
previous half-block does. -/
theorem brdct_detach_same_half_cex :
    (brdct_detach_reader 3 ⟨5, 2, 1, 1⟩ 4).ncycled ≠ 1 := by decide

/-- C4 amended: with hstate = 1, brdct_detach_reader decrements ncycled
in addition to nreaders exactly when the dying reader's half-block equals
the writer's current one (tail >> (k-1) == r >> (k-1), i.e. the reader has
cycled); for a reader in the other half-block, and whenever hstate = 0,
it decrements nreaders only. -/
theorem brdct_detach_reader_char (k : Nat) (b : Broadcast) (r : Nat)
    (hnr : 1 ≤ b.nreaders) (hnr2 : b.nreaders < 2 ^ 15)
    (hnc : 1 ≤ b.ncycled) (hnc2 : b.ncycled < 2 ^ 15) :
    (b.hstate = 1 → b.tail / 2 ^ (k - 1) = r / 2 ^ (k - 1) →
      brdct_detach_reader k b r =
        { b with nreaders := b.nreaders - 1, ncycled := b.ncycled - 1 }) ∧
    (b.hstate = 0 ∨ b.tail / 2 ^ (k - 1) ≠ r / 2 ^ (k - 1) →
      brdct_detach_reader k b r = { b with nreaders := b.nreaders - 1 }) := by
  have hn : (b.nreaders + (2 ^ 15 - 1)) % 2 ^ 15 = b.nreaders - 1 := by omega
  have hc : (b.ncycled + (2 ^ 15 - 1)) % 2 ^ 15 = b.ncycled - 1 := by omega
  constructor
  · intro h1 h2
    have hg : b.hstate ≠ 0 ∧ b.tail / 2 ^ (k - 1) = r / 2 ^ (k - 1) := ⟨by omega, h2⟩
    simp only [brdct_detach_reader, if_pos hg, hn, hc]
  · intro h1
    have hng : ¬ (b.hstate ≠ 0 ∧ b.tail / 2 ^ (k - 1) = r / 2 ^ (k - 1)) := by
      rcases h1 with h1 | h1
      · intro hcon
        exact hcon.1 (by omega)
      · intro hcon
        exact h1 hcon.2
    simp only [brdct_detach_reader, if_neg hng, hn]

/-- Witness for C4 at k = 3, word (5, 2, 1, 1): detaching a cycled reader
at r = 4 decrements both counters, detaching a reader at r = 1 in the
previous half-block decrements nreaders only. -/
theorem brdct_detach_reader_char_witness :
    brdct_detach_reader 3 ⟨5, 2, 1, 1⟩ 4 = ⟨5, 1, 0, 1⟩ ∧
    brdct_detach_reader 3 ⟨5, 2, 1, 1⟩ 1 = ⟨5, 1, 1, 1⟩ :=
  ⟨(brdct_detach_reader_char 3 ⟨5, 2, 1, 1⟩ 4 (by decide) (by decide) (by decide)
      (by decide)).1 rfl rfl,
   (brdct_detach_reader_char 3 ⟨5, 2, 1, 1⟩ 1 (by decide) (by decide) (by decide)
      (by decide)).2 (Or.inr (by decide))⟩

/-- C7: the narrow variant's overflow test in brdct_attach_reader compares
nreaders against ((1 << 15) - 1) >> 1 = 16383, a value the 7-bit field can
never hold, so the check is dead: at the 127-reader ceiling the attach
succeeds and wraps nreaders to 0 instead of returning the overflow
sentinel. -/
theorem narrow_attach_overflow_check_dead :
    narrow_attach_reader 5 ⟨0, 127, 0, 0⟩ = some (⟨0, 0, 0, 0⟩, 0) := by decide

/-! The operational semantics: equation lemmas for applyOp. -/

theorem applyOp_attach (k : Nat) (c c2 : Config)
    (h : applyOp k Op.attach c = some c2) :
    c.nreaders ≠ 2 ^ 15 - 1 ∧
    c2 = { c with nreaders := (c.nreaders + 1) % 2 ^ 15,
                  readers := c.readers ++ [{ gr := ghead k c.gtail c.hstate, pend := none }] } := by
  simp only [applyOp, brdct_attach_reader, machineB] at h
  by_cases hg : c.nreaders = 2 ^ 15 - 1
  · rw [if_pos hg] at h
    exact absurd h (by simp)
  · rw [if_neg hg] at h
    simp only [Option.some.injEq] at h
    exact ⟨hg, h.symm⟩

theorem applyOp_detach (k i : Nat) (c c2 : Config)
    (h : applyOp k (Op.detach i) c = some c2) :
    ∃ x, c.readers[i]? = some x ∧
      c2 = { c with
        nreaders := (c.nreaders + (2 ^ 15 - 1)) % 2 ^ 15,
        ncycled := if c.hstate ≠ 0 ∧
            (c.gtail % 2 ^ 33) / 2 ^ (k - 1) = (x.gr % 2 ^ 32) / 2 ^ (k - 1) then
          (c.ncycled + (2 ^ 15 - 1)) % 2 ^ 15 else c.ncycled,
        readers := c.readers.eraseIdx i } := by
  simp only [applyOp] at h
  split at h
  next hx => exact absurd h (by simp)
  next x hx =>
    refine ⟨x, hx, ?_⟩
    simp only [brdct_detach_reader, machineB, Option.some.injEq] at h
    by_cases hcond : c.hstate ≠ 0 ∧
        (c.gtail % 2 ^ 33) / 2 ^ (k - 1) = (x.gr % 2 ^ 32) / 2 ^ (k - 1)
    · rw [if_pos hcond] at h
      rw [if_pos hcond]
      exact h.symm
    · rw [if_neg hcond] at h
      rw [if_neg hcond]
      exact h.symm

theorem applyOp_rslice (k i : Nat) (c c2 : Config)
    (h : applyOp k (Op.rslice i) c = some c2) :
    ∃ x, c.readers[i]? = some x ∧
      c2 = { c with readers := (c.readers.set i
        { gr := x.gr,
          pend := some ((brdct_reader_slice k (machineB c) (x.gr % 2 ^ 32)).len) }) } := by
  simp only [applyOp] at h
  split at h
  next hx => exact absurd h (by simp)
  next x hx =>
    simp only [Option.some.injEq] at h
    exact ⟨x, hx, h.symm⟩

theorem applyOp_rcommit (k i n : Nat) (c c2 : Config)
    (h : applyOp k (Op.rcommit i n) c = some c2) :
    ∃ x L, c.readers[i]? = some x ∧ x.pend = some L ∧ n ≤ L ∧
      c2 = { c with
        ncycled := if ((x.gr % 2 ^ 32 + n) % 2 ^ 32) / 2 ^ (k - 1) =
            (x.gr % 2 ^ 32) / 2 ^ (k - 1) then c.ncycled else (c.ncycled + 1) % 2 ^ 15,
        readers := c.readers.set i { gr := x.gr + n, pend := none } } := by
  simp only [applyOp] at h
  split at h
  next hx => exact absurd h (by simp)
  next x hx =>
    split at h
    next hp => exact absurd h (by simp)
    next L hp =>
      split at h
      next hn =>
        refine ⟨x, L, hx, hp, hn, ?_⟩
        simp only [brdct_reader_commit, machineB, Option.some.injEq] at h
        by_cases hcond : ((x.gr % 2 ^ 32 + n) % 2 ^ 32) / 2 ^ (k - 1) =
            (x.gr % 2 ^ 32) / 2 ^ (k - 1)
        · rw [if_pos hcond] at h
          rw [if_pos hcond]
          exact h.symm
        · rw [if_neg hcond] at h
          rw [if_neg hcond]
          exact h.symm
      next hn => exact absurd h (by simp)

theorem applyOp_wslice (k : Nat) (c c2 : Config)
    (h : applyOp k Op.wslice c = some c2) :
    ((c.nreaders = 0 ∨ c.ncycled < c.nreaders) ∧
      c2 = { c with wpend := some ((wslice_of k (c.gtail % 2 ^ 33) c.hstate).len) }) ∨
    (¬ (c.nreaders = 0 ∨ c.ncycled < c.nreaders) ∧
      c2 = { c with ncycled := 0, hstate := 0,
                    wpend := some ((wslice_of k (c.gtail % 2 ^ 33) 0).len) }) := by
  simp only [applyOp, brdct_writer_slice, machineB, Option.some.injEq] at h
  by_cases hg : c.nreaders = 0 ∨ c.ncycled < c.nreaders
  · rw [if_pos hg] at h
    exact Or.inl ⟨hg, h.symm⟩
  · rw [if_neg hg] at h
    exact Or.inr ⟨hg, h.symm⟩

theorem applyOp_wcommit (k n : Nat) (c c2 : Config)
    (h : applyOp k (Op.wcommit n) c = some c2) :
    ∃ L, c.wpend = some L ∧ n ≤ L ∧
      c2 = { c with
        gtail := c.gtail + n,
        hstate := if ((c.gtail % 2 ^ 33 + n) % 2 ^ 33) / 2 ^ (k - 1) ≠
            (c.gtail % 2 ^ 33) / 2 ^ (k - 1) then 1 else c.hstate,
        wpend := none } := by
  simp only [applyOp] at h
  split at h
  next hw => exact absurd h (by simp)
  next L hw =>
    split at h
    next hn =>
      refine ⟨L, hw, hn, ?_⟩
      simp only [brdct_writer_commit, machineB, Option.some.injEq] at h
      by_cases hcond : ((c.gtail % 2 ^ 33 + n) % 2 ^ 33) / 2 ^ (k - 1) ≠
          (c.gtail % 2 ^ 33) / 2 ^ (k - 1)
      · rw [if_pos hcond] at h
        rw [if_pos hcond]
        exact h.symm
      · rw [if_neg hcond] at h
        rw [if_neg hcond]
        exact h.symm
    next hn => exact absurd h (by simp)

theorem aligned_ge (H x : Nat) (hH : 0 < H) (h : H ≤ x) : H ≤ x - x % H := by
  have h1 := Nat.mod_lt x hH
  have h2 : H ∣ x - x % H := aligned_dvd H x
  have h3 : 0 < x - x % H := by omega
  exact Nat.le_of_dvd h3 h2

theorem inv_facts (k : Nat) (hk : 1 ≤ k) (c : Config) (hsle : c.hstate ≤ 1)
    (hst : c.hstate = 1 → 2 ^ (k - 1) ≤ c.gtail) :
    2 ^ (k - 1) * c.hstate ≤ c.gtail - c.gtail % 2 ^ (k - 1) ∧
    ghead k c.gtail c.hstate ≤ c.gtail ∧
    c.gtail - ghead k c.gtail c.hstate ≤ 2 ^ k - 1 ∧
    ghead k c.gtail c.hstate + (2 ^ (k - 1) * c.hstate + c.gtail % 2 ^ (k - 1)) = c.gtail := by
  have hH : 0 < 2 ^ (k - 1) := Nat.pos_pow_of_pos _ (by norm_num)
  have hC2H : 2 ^ k = 2 * 2 ^ (k - 1) := by
    rw [← pow_succ']
    congr 1
    omega
  have hm1 := Nat.mod_lt c.gtail hH
  have hm2 := Nat.mod_le c.gtail (2 ^ (k - 1))
  unfold ghead
  rcases Nat.le_one_iff_eq_zero_or_eq_one.mp hsle with h0 | h1
  · rw [h0]
    omega
  · have hA := aligned_ge (2 ^ (k - 1)) c.gtail hH (hst h1)
    rw [h1]
    omega

theorem inv_attach (k : Nat) (hk : 1 ≤ k) (c : Config)
    (hg : c.nreaders ≠ 2 ^ 15 - 1) (hI : INV k c) :
    INV k { c with nreaders := (c.nreaders + 1) % 2 ^ 15,
                   readers := c.readers ++ [{ gr := ghead k c.gtail c.hstate, pend := none }] } := by
  obtain ⟨hs_le, hs_tail, nr_eq, nr_le, r_lb, r_ub, r_pend, w_pend, census⟩ := hI
  have hH : 0 < 2 ^ (k - 1) := Nat.pos_pow_of_pos _ (by norm_num)
  obtain ⟨hf1, hf2, hf3, hf4⟩ := inv_facts k hk c hs_le hs_tail
  refine ⟨hs_le, hs_tail, ?_, ?_, ?_, ?_, ?_, ?_, ?_⟩
  · show (c.nreaders + 1) % 2 ^ 15 =
      (c.readers ++ [({ gr := ghead k c.gtail c.hstate, pend := none } : RState)]).length
    rw [List.length_append, List.length_singleton]
    omega
  · show (c.readers ++ [({ gr := ghead k c.gtail c.hstate, pend := none } : RState)]).length ≤ 2 ^ 15 - 1
    rw [List.length_append, List.length_singleton]
    omega
  · intro x hx
    rcases List.mem_append.mp hx with h1 | h1
    · exact r_lb x h1
    · rw [List.mem_singleton] at h1
      subst h1
      exact le_refl _
  · intro x hx
    rcases List.mem_append.mp hx with h1 | h1
    · exact r_ub x h1
    · rw [List.mem_singleton] at h1
      subst h1
      exact hf2
  · intro x hx L hL
    rcases List.mem_append.mp hx with h1 | h1
    · exact r_pend x h1 L hL
    · rw [List.mem_singleton] at h1
      subst h1
      exact absurd hL (by simp)
  · exact w_pend
  · show c.ncycled = if c.hstate = 0 then 0 else
      (c.readers ++ [({ gr := ghead k c.gtail c.hstate, pend := none } : RState)]).countP (cycledP k c.gtail)
    by_cases h0 : c.hstate = 0
    · rw [if_pos h0]
      rw [census, if_pos h0]
    · rw [if_neg h0]
      rw [census, if_neg h0, List.countP_append]
      have h1 : c.hstate = 1 := by omega
      have hA := aligned_ge (2 ^ (k - 1)) c.gtail hH (hs_tail h1)
      have hnew : cycledP k c.gtail ({ gr := ghead k c.gtail c.hstate, pend := none } : RState) = false := by
        simp only [cycledP, decide_eq_false_iff_not]
        unfold ghead
        rw [h1]
        omega
      rw [List.countP_cons, List.countP_nil, hnew]
      simp

theorem inv_detach (k i : Nat) (hk : 1 ≤ k) (c : Config) (x : RState)
    (hx : c.readers[i]? = some x) (hreg : c.gtail < 2 ^ 32) (hI : INV k c) :
    INV k { c with
      nreaders := (c.nreaders + (2 ^ 15 - 1)) % 2 ^ 15,
      ncycled := if c.hstate ≠ 0 ∧
          (c.gtail % 2 ^ 33) / 2 ^ (k - 1) = (x.gr % 2 ^ 32) / 2 ^ (k - 1) then
        (c.ncycled + (2 ^ 15 - 1)) % 2 ^ 15 else c.ncycled,
      readers := c.readers.eraseIdx i } := by
  obtain ⟨hs_le, hs_tail, nr_eq, nr_le, r_lb, r_ub, r_pend, w_pend, census⟩ := hI
  have hH : 0 < 2 ^ (k - 1) := Nat.pos_pow_of_pos _ (by norm_num)
  have hxmem := getElem?_mem c.readers i x hx
  have hlen := length_eraseIdx c.readers i x hx
  have hxle : x.gr ≤ c.gtail := r_ub x hxmem
  have hm1 : c.gtail % 2 ^ 33 = c.gtail := Nat.mod_eq_of_lt (by omega)
  have hm2 : x.gr % 2 ^ 32 = x.gr := Nat.mod_eq_of_lt (by omega)
  have htest : ((c.gtail % 2 ^ 33) / 2 ^ (k - 1) = (x.gr % 2 ^ 32) / 2 ^ (k - 1)) ↔
      (c.gtail - c.gtail % 2 ^ (k - 1) ≤ x.gr) := by
    rw [hm1, hm2]
    exact ⟨fun h => (div_eq_div_iff_aligned _ _ _ hH hxle).mp h.symm,
      fun h => ((div_eq_div_iff_aligned _ _ _ hH hxle).mpr h).symm⟩
  refine ⟨hs_le, hs_tail, ?_, ?_, ?_, ?_, ?_, w_pend, ?_⟩
  · show (c.nreaders + (2 ^ 15 - 1)) % 2 ^ 15 = (c.readers.eraseIdx i).length
    omega
  · show (c.readers.eraseIdx i).length ≤ 2 ^ 15 - 1
    omega
  · intro y hy
    exact r_lb y (mem_eraseIdx _ _ _ hy)
  · intro y hy
    exact r_ub y (mem_eraseIdx _ _ _ hy)
  · intro y hy L hL
    exact r_pend y (mem_eraseIdx _ _ _ hy) L hL
  · show (if c.hstate ≠ 0 ∧
        (c.gtail % 2 ^ 33) / 2 ^ (k - 1) = (x.gr % 2 ^ 32) / 2 ^ (k - 1) then
      (c.ncycled + (2 ^ 15 - 1)) % 2 ^ 15 else c.ncycled) =
      if c.hstate = 0 then 0 else (c.readers.eraseIdx i).countP (cycledP k c.gtail)
    have hcount := countP_eraseIdx (cycledP k c.gtail) c.readers i x hx
    by_cases h0 : c.hstate = 0
    · rw [if_neg (show ¬ (c.hstate ≠ 0 ∧ _) from fun hcon => hcon.1 h0), if_pos h0,
        census, if_pos h0]
    · have hcy : c.ncycled = c.readers.countP (cycledP k c.gtail) := by rw [census, if_neg h0]
      have hble : c.readers.countP (cycledP k c.gtail) ≤ c.readers.length :=
        List.countP_le_length (cycledP k c.gtail)
      by_cases hp : cycledP k c.gtail x = true
      · have hcond : c.hstate ≠ 0 ∧
            (c.gtail % 2 ^ 33) / 2 ^ (k - 1) = (x.gr % 2 ^ 32) / 2 ^ (k - 1) := by
          refine ⟨h0, htest.mpr ?_⟩
          simpa [cycledP] using hp
        rw [if_pos hcond, if_neg h0]
        rw [hp] at hcount
        simp only [if_true] at hcount
        omega
      · have hpf : cycledP k c.gtail x = false := by
          cases hcv : cycledP k c.gtail x
          · rfl
          · exact absurd hcv hp
        have hcond : ¬ (c.hstate ≠ 0 ∧
            (c.gtail % 2 ^ 33) / 2 ^ (k - 1) = (x.gr % 2 ^ 32) / 2 ^ (k - 1)) := by
          intro hcon
          have h3 := htest.mp hcon.2
          rw [show cycledP k c.gtail x = decide (c.gtail - c.gtail % 2 ^ (k - 1) ≤ x.gr) from rfl]
            at hpf
          simp only [decide_eq_false_iff_not] at hpf
          exact hpf h3
        rw [if_neg hcond, if_neg h0]
        rw [hpf] at hcount
        simp at hcount
        omega

theorem inv_rslice (k i : Nat) (hk : 1 ≤ k) (hk2 : k ≤ 33) (c : Config) (x : RState)
    (hx : c.readers[i]? = some x) (hreg : c.gtail < 2 ^ 32) (hI : INV k c) :
    INV k { c with readers := (c.readers.set i
      { gr := x.gr,
        pend := some ((brdct_reader_slice k (machineB c) (x.gr % 2 ^ 32)).len) }) } := by
  obtain ⟨hs_le, hs_tail, nr_eq, nr_le, r_lb, r_ub, r_pend, w_pend, census⟩ := hI
  have hH : 0 < 2 ^ (k - 1) := Nat.pos_pow_of_pos _ (by norm_num)
  obtain ⟨hf1, hf2, hf3, hf4⟩ := inv_facts k hk c hs_le hs_tail
  have hxmem := getElem?_mem c.readers i x hx
  have hxle : x.gr ≤ c.gtail := r_ub x hxmem
  have hxlb : ghead k c.gtail c.hstate ≤ x.gr := r_lb x hxmem
  have hmB : (machineB c).tail = c.gtail := Nat.mod_eq_of_lt (by omega)
  have hm2 : x.gr % 2 ^ 32 = x.gr := Nat.mod_eq_of_lt (by omega)
  have hlen : (brdct_reader_slice k (machineB c) (x.gr % 2 ^ 32)).len = c.gtail - x.gr := by
    have hd : (2 ^ 64 + (machineB c).tail - x.gr % 2 ^ 32) % 2 ^ 64 ≤ 2 ^ k - 1 := by
      rw [hmB, hm2, wrap_eval _ _ _ hxle (by omega)]
      omega
    have hchar := brdct_reader_slice_char k (machineB c) (x.gr % 2 ^ 32) hk hk2
      (by rw [hmB]; omega) (by rw [hm2]; omega) hd
    rw [hchar.2.1, hmB, hm2]
  set newx : RState :=
    { gr := x.gr, pend := some ((brdct_reader_slice k (machineB c) (x.gr % 2 ^ 32)).len) }
    with hnewx
  refine ⟨hs_le, hs_tail, ?_, ?_, ?_, ?_, ?_, w_pend, ?_⟩
  · show c.nreaders = (c.readers.set i newx).length
    rw [List.length_set]
    exact nr_eq
  · show (c.readers.set i newx).length ≤ 2 ^ 15 - 1
    rw [List.length_set]
    exact nr_le
  · intro y hy
    rcases List.mem_or_eq_of_mem_set hy with h1 | h1
    · exact r_lb y h1
    · subst h1
      exact hxlb
  · intro y hy
    rcases List.mem_or_eq_of_mem_set hy with h1 | h1
    · exact r_ub y h1
    · subst h1
      exact hxle
  · intro y hy L hL
    rcases List.mem_or_eq_of_mem_set hy with h1 | h1
    · exact r_pend y h1 L hL
    · subst h1
      rw [hnewx] at hL
      simp only [Option.some.injEq] at hL
      rw [hnewx]
      show x.gr + L ≤ c.gtail
      rw [← hL, hlen]
      omega
  · show c.ncycled = if c.hstate = 0 then 0 else (c.readers.set i newx).countP (cycledP k c.gtail)
    have hpp : cycledP k c.gtail newx = cycledP k c.gtail x := rfl
    have hcount := countP_set (cycledP k c.gtail) c.readers i x newx hx
    rw [hpp] at hcount
    have hsame : (c.readers.set i newx).countP (cycledP k c.gtail) =
        c.readers.countP (cycledP k c.gtail) := Nat.add_right_cancel hcount
    by_cases h0 : c.hstate = 0
    · rw [if_pos h0, census, if_pos h0]
    · rw [if_neg h0, hsame, census, if_neg h0]

theorem applyOp_gtail_mono (k : Nat) (op : Op) (c c2 : Config)
    (h : applyOp k op c = some c2) : c.gtail ≤ c2.gtail := by
  cases op with
  | attach =>
    obtain ⟨-, rfl⟩ := applyOp_attach k c c2 h
    exact le_refl _
  | detach i =>
    obtain ⟨x, -, rfl⟩ := applyOp_detach k i c c2 h
    exact le_refl _
  | rslice i =>
    obtain ⟨x, -, rfl⟩ := applyOp_rslice k i c c2 h
    exact le_refl _
  | rcommit i n =>
    obtain ⟨x, L, -, -, -, rfl⟩ := applyOp_rcommit k i n c c2 h
    exact le_refl _
  | wslice =>
    rcases applyOp_wslice k c c2 h with ⟨-, rfl⟩ | ⟨-, rfl⟩ <;> exact le_refl _
  | wcommit n =>
    obtain ⟨L, -, -, rfl⟩ := applyOp_wcommit k n c c2 h
    exact Nat.le_add_right _ _

theorem inv_rcommit (k i n : Nat) (hk : 1 ≤ k) (c : Config) (x : RState) (L : Nat)
    (hx : c.readers[i]? = some x) (hp : x.pend = some L) (hn : n ≤ L)
    (hreg : c.gtail < 2 ^ 32) (hI : INV k c) :
    INV k { c with
      ncycled := if ((x.gr % 2 ^ 32 + n) % 2 ^ 32) / 2 ^ (k - 1) =
          (x.gr % 2 ^ 32) / 2 ^ (k - 1) then c.ncycled else (c.ncycled + 1) % 2 ^ 15,
      readers := c.readers.set i { gr := x.gr + n, pend := none } } := by
  obtain ⟨hs_le, hs_tail, nr_eq, nr_le, r_lb, r_ub, r_pend, w_pend, census⟩ := hI
  have hH : 0 < 2 ^ (k - 1) := Nat.pos_pow_of_pos _ (by norm_num)
  have hxmem := getElem?_mem c.readers i x hx
  have hxle : x.gr ≤ c.gtail := r_ub x hxmem
  have hxpend : x.gr + L ≤ c.gtail := r_pend x hxmem L hp
  have hm1 : x.gr % 2 ^ 32 = x.gr := Nat.mod_eq_of_lt (by omega)
  have hmn : (x.gr + n) % 2 ^ 32 = x.gr + n := Nat.mod_eq_of_lt (by omega)
  have hA_dvd : 2 ^ (k - 1) ∣ c.gtail - c.gtail % 2 ^ (k - 1) := aligned_dvd _ _
  have hA_le : c.gtail - c.gtail % 2 ^ (k - 1) ≤ c.gtail := aligned_le _ _
  have hgt_lt : c.gtail < c.gtail - c.gtail % 2 ^ (k - 1) + 2 ^ (k - 1) :=
    lt_aligned_add _ _ hH
  refine ⟨hs_le, hs_tail, ?_, ?_, ?_, ?_, ?_, w_pend, ?_⟩
  · show c.nreaders = (c.readers.set i { gr := x.gr + n, pend := none }).length
    rw [List.length_set]
    exact nr_eq
  · show (c.readers.set i { gr := x.gr + n, pend := none }).length ≤ 2 ^ 15 - 1
    rw [List.length_set]
    exact nr_le
  · intro y hy
    rcases List.mem_or_eq_of_mem_set hy with h1 | h1
    · exact r_lb y h1
    · subst h1
      exact le_trans (r_lb x hxmem) (Nat.le_add_right _ _)
  · intro y hy
    rcases List.mem_or_eq_of_mem_set hy with h1 | h1
    · exact r_ub y h1
    · subst h1
      show x.gr + n ≤ c.gtail
      omega
  · intro y hy Lp hLp
    rcases List.mem_or_eq_of_mem_set hy with h1 | h1
    · exact r_pend y h1 Lp hLp
    · subst h1
      exact absurd (show (none : Option Nat) = some Lp from hLp) (by simp)
  · show (if ((x.gr % 2 ^ 32 + n) % 2 ^ 32) / 2 ^ (k - 1) =
        (x.gr % 2 ^ 32) / 2 ^ (k - 1) then c.ncycled else (c.ncycled + 1) % 2 ^ 15) =
      if c.hstate = 0 then 0 else
        (c.readers.set i { gr := x.gr + n, pend := none }).countP (cycledP k c.gtail)
    rw [hm1, hmn]
    by_cases hcond : (x.gr + n) / 2 ^ (k - 1) = x.gr / 2 ^ (k - 1)
    · rw [if_pos hcond]
      by_cases h0 : c.hstate = 0
      · rw [if_pos h0, census, if_pos h0]
      · rw [if_neg h0]
        have hal : (x.gr + n) - (x.gr + n) % 2 ^ (k - 1) ≤ x.gr :=
          (div_eq_div_iff_aligned _ _ _ hH (Nat.le_add_right _ _)).mp hcond.symm
        have hpeq : cycledP k c.gtail ({ gr := x.gr + n, pend := none } : RState) =
            cycledP k c.gtail x := by
          unfold cycledP
          rw [decide_eq_decide]
          show c.gtail - c.gtail % 2 ^ (k - 1) ≤ x.gr + n ↔
            c.gtail - c.gtail % 2 ^ (k - 1) ≤ x.gr
          constructor
          · intro h5
            have h6 := aligned_eq_of_between (2 ^ (k - 1))
              (c.gtail - c.gtail % 2 ^ (k - 1)) (x.gr + n) hA_dvd h5 (by omega)
            omega
          · intro h5
            omega
        have hcnt := countP_set (cycledP k c.gtail) c.readers i x
          { gr := x.gr + n, pend := none } hx
        rw [hpeq] at hcnt
        have hsame := Nat.add_right_cancel hcnt
        rw [census, if_neg h0, hsame]
    · rw [if_neg hcond]
      have hquot : ∀ B, 2 ^ (k - 1) ∣ B → B ≤ x.gr → x.gr + n < B + 2 ^ (k - 1) → False := by
        intro B hB h1 h2
        have h6 := aligned_eq_of_between (2 ^ (k - 1)) B (x.gr + n) hB (by omega) h2
        exact hcond ((div_eq_div_iff_aligned _ _ _ hH (Nat.le_add_right _ _)).mpr
          (by omega)).symm
      by_cases h0 : c.hstate = 0
      · exfalso
        have hlb := r_lb x hxmem
        unfold ghead at hlb
        rw [h0, Nat.mul_zero, Nat.sub_zero] at hlb
        exact hquot (c.gtail - c.gtail % 2 ^ (k - 1)) hA_dvd hlb (by omega)
      · rw [if_neg h0]
        have h1 : c.hstate = 1 := by omega
        have hlb := r_lb x hxmem
        unfold ghead at hlb
        rw [h1, Nat.mul_one] at hlb
        have hHA : 2 ^ (k - 1) ≤ c.gtail - c.gtail % 2 ^ (k - 1) :=
          aligned_ge _ _ hH (hs_tail h1)
        have hAH_dvd : 2 ^ (k - 1) ∣ c.gtail - c.gtail % 2 ^ (k - 1) - 2 ^ (k - 1) :=
          Nat.dvd_sub' hA_dvd (dvd_refl _)
        have px_false : x.gr < c.gtail - c.gtail % 2 ^ (k - 1) := by
          by_contra h5
          exact hquot (c.gtail - c.gtail % 2 ^ (k - 1)) hA_dvd (by omega) (by omega)
        have pxn_true : c.gtail - c.gtail % 2 ^ (k - 1) ≤ x.gr + n := by
          by_contra h5
          exact hquot (c.gtail - c.gtail % 2 ^ (k - 1) - 2 ^ (k - 1)) hAH_dvd
            (by omega) (by omega)
        have hpx : cycledP k c.gtail x = false := by
          unfold cycledP
          simp only [decide_eq_false_iff_not]
          omega
        have hpn : cycledP k c.gtail ({ gr := x.gr + n, pend := none } : RState) = true := by
          unfold cycledP
          simp only [decide_eq_true_eq]
          exact pxn_true
        have hcnt := countP_set (cycledP k c.gtail) c.readers i x
          { gr := x.gr + n, pend := none } hx
        rw [hpx, hpn] at hcnt
        simp at hcnt
        have hble : (c.readers.set i
            ({ gr := x.gr + n, pend := none } : RState)).countP (cycledP k c.gtail) ≤
            c.readers.length := by
          rw [← List.length_set c.readers i ({ gr := x.gr + n, pend := none } : RState)]
          exact List.countP_le_length _
        rw [census, if_neg h0]
        omega

theorem inv_wslice_keep (k : Nat) (hk : 1 ≤ k) (hk2 : k ≤ 33) (c : Config)
    (hreg : c.gtail < 2 ^ 32) (hI : INV k c) :
    INV k { c with wpend := some ((wslice_of k (c.gtail % 2 ^ 33) c.hstate).len) } := by
  obtain ⟨hs_le, hs_tail, nr_eq, nr_le, r_lb, r_ub, r_pend, w_pend, census⟩ := hI
  have hH : 0 < 2 ^ (k - 1) := Nat.pos_pow_of_pos _ (by norm_num)
  have hC2H : 2 ^ k = 2 * 2 ^ (k - 1) := by
    rw [← pow_succ']
    congr 1
    omega
  obtain ⟨hf1, hf2, hf3, hf4⟩ := inv_facts k hk c hs_le hs_tail
  obtain ⟨hlen, -, -, -, -⟩ :=
    wslice_of_char k (c.gtail % 2 ^ 33) c.hstate hk hk2 (Nat.mod_lt _ (by norm_num)) hs_le
  have hm : c.gtail % 2 ^ 33 = c.gtail := Nat.mod_eq_of_lt (by omega)
  rw [hm] at hlen
  refine ⟨hs_le, hs_tail, nr_eq, nr_le, r_lb, r_ub, r_pend, ?_, census⟩
  intro L hL
  show c.gtail + L + 1 ≤ ghead k c.gtail c.hstate + 2 ^ k
  have hL2 : some ((wslice_of k (c.gtail % 2 ^ 33) c.hstate).len) = some L := hL
  simp only [Option.some.injEq] at hL2
  rw [hm] at hL2
  rcases Nat.le_one_iff_eq_zero_or_eq_one.mp hs_le with h0 | h1
  · rw [h0] at hlen hf3 hf4 hL2 ⊢
    rw [Nat.mul_zero] at hlen hf4
    omega
  · rw [h1] at hlen hf3 hf4 hL2 ⊢
    rw [Nat.mul_one] at hlen hf4
    omega

theorem inv_wslice_reset (k : Nat) (hk : 1 ≤ k) (hk2 : k ≤ 33) (c : Config)
    (hg : ¬ (c.nreaders = 0 ∨ c.ncycled < c.nreaders))
    (hreg : c.gtail < 2 ^ 32) (hI : INV k c) :
    INV k { c with ncycled := 0, hstate := 0,
                   wpend := some ((wslice_of k (c.gtail % 2 ^ 33) 0).len) } := by
  obtain ⟨hs_le, hs_tail, nr_eq, nr_le, r_lb, r_ub, r_pend, w_pend, census⟩ := hI
  have hH : 0 < 2 ^ (k - 1) := Nat.pos_pow_of_pos _ (by norm_num)
  have hC2H : 2 ^ k = 2 * 2 ^ (k - 1) := by
    rw [← pow_succ']
    congr 1
    omega
  push_neg at hg
  obtain ⟨hg1, hg2⟩ := hg
  have h1 : c.hstate = 1 := by
    rcases Nat.le_one_iff_eq_zero_or_eq_one.mp hs_le with h0 | h1
    · rw [census, if_pos h0] at hg2
      omega
    · exact h1
  have hcy : c.ncycled = c.readers.countP (cycledP k c.gtail) := by
    rw [census, if_neg (by omega)]
  have hcl : c.readers.countP (cycledP k c.gtail) = c.readers.length := by
    have h5 : c.readers.countP (cycledP k c.gtail) ≤ c.readers.length :=
      List.countP_le_length _
    omega
  have hall : ∀ y ∈ c.readers, c.gtail - c.gtail % 2 ^ (k - 1) ≤ y.gr := by
    intro y hy
    have h5 := List.countP_eq_length.mp hcl y hy
    unfold cycledP at h5
    exact of_decide_eq_true h5
  obtain ⟨hlen, -, -, -, -⟩ :=
    wslice_of_char k (c.gtail % 2 ^ 33) 0 hk hk2 (Nat.mod_lt _ (by norm_num)) (by norm_num)
  have hm : c.gtail % 2 ^ 33 = c.gtail := Nat.mod_eq_of_lt (by omega)
  rw [hm] at hlen
  rw [Nat.mul_zero] at hlen
  have hmlt := Nat.mod_lt c.gtail hH
  have hmle := Nat.mod_le c.gtail (2 ^ (k - 1))
  refine ⟨?_, ?_, nr_eq, nr_le, ?_, r_ub, r_pend, ?_, ?_⟩
  · show (0 : Nat) ≤ 1
    omega
  · intro h5
    exact absurd (show (0 : Nat) = 1 from h5) (by omega)
  · intro y hy
    show ghead k c.gtail 0 ≤ y.gr
    unfold ghead
    rw [Nat.mul_zero, Nat.sub_zero]
    exact hall y hy
  · intro L hL
    show c.gtail + L + 1 ≤ ghead k c.gtail 0 + 2 ^ k
    have hL2 : some ((wslice_of k (c.gtail % 2 ^ 33) 0).len) = some L := hL
    simp only [Option.some.injEq] at hL2
    rw [hm] at hL2
    unfold ghead
    rw [Nat.mul_zero, Nat.sub_zero]
    omega
  · show (0 : Nat) = if (0 : Nat) = 0 then 0 else
      (c.readers.countP (cycledP k c.gtail))
    rw [if_pos rfl]

theorem inv_wcommit (k n : Nat) (hk : 1 ≤ k) (c : Config) (L : Nat)
    (hw : c.wpend = some L) (hn : n ≤ L)
    (hreg2 : c.gtail + n < 2 ^ 32) (hI : INV k c) :
    INV k { c with
      gtail := c.gtail + n,
      hstate := if ((c.gtail % 2 ^ 33 + n) % 2 ^ 33) / 2 ^ (k - 1) ≠
          (c.gtail % 2 ^ 33) / 2 ^ (k - 1) then 1 else c.hstate,
      wpend := none } := by
  obtain ⟨hs_le, hs_tail, nr_eq, nr_le, r_lb, r_ub, r_pend, w_pend, census⟩ := hI
  have hH : 0 < 2 ^ (k - 1) := Nat.pos_pow_of_pos _ (by norm_num)
  have hC2H : 2 ^ k = 2 * 2 ^ (k - 1) := by
    rw [← pow_succ']
    congr 1
    omega
  have hm1 : c.gtail % 2 ^ 33 = c.gtail := Nat.mod_eq_of_lt (by omega)
  have hm2 : (c.gtail % 2 ^ 33 + n) % 2 ^ 33 = c.gtail + n := by
    rw [hm1]
    exact Nat.mod_eq_of_lt (by omega)
  have hwp := w_pend L hw
  have hA_dvd : 2 ^ (k - 1) ∣ c.gtail - c.gtail % 2 ^ (k - 1) := aligned_dvd _ _
  have hA_le : c.gtail - c.gtail % 2 ^ (k - 1) ≤ c.gtail := aligned_le _ _
  have hgt_lt : c.gtail < c.gtail - c.gtail % 2 ^ (k - 1) + 2 ^ (k - 1) :=
    lt_aligned_add _ _ hH
  rw [hm1, Nat.mod_eq_of_lt (show c.gtail + n < 2 ^ 33 by omega)]
  by_cases hcond : (c.gtail + n) / 2 ^ (k - 1) ≠ c.gtail / 2 ^ (k - 1)
  · rw [if_pos hcond]
    have h0 : c.hstate = 0 := by
      rcases Nat.le_one_iff_eq_zero_or_eq_one.mp hs_le with h0 | h1
      · exact h0
      · exfalso
        unfold ghead at hwp
        rw [h1, Nat.mul_one] at hwp
        have hHA : 2 ^ (k - 1) ≤ c.gtail - c.gtail % 2 ^ (k - 1) :=
          aligned_ge _ _ hH (hs_tail h1)
        have h6 := aligned_eq_of_between (2 ^ (k - 1))
          (c.gtail - c.gtail % 2 ^ (k - 1)) (c.gtail + n) hA_dvd (by omega) (by omega)
        exact hcond ((div_eq_div_iff_aligned _ _ _ hH (Nat.le_add_right _ _)).mpr
          (by omega)).symm
    unfold ghead at hwp
    rw [h0, Nat.mul_zero, Nat.sub_zero] at hwp
    have hq : c.gtail / 2 ^ (k - 1) < (c.gtail + n) / 2 ^ (k - 1) :=
      lt_of_le_of_ne (Nat.div_le_div_right (Nat.le_add_right _ _)) (Ne.symm hcond)
    have hup : c.gtail - c.gtail % 2 ^ (k - 1) + 2 ^ (k - 1) ≤ c.gtail + n := by
      have h5 : 2 ^ (k - 1) * (c.gtail / 2 ^ (k - 1) + 1) ≤
          2 ^ (k - 1) * ((c.gtail + n) / 2 ^ (k - 1)) :=
        Nat.mul_le_mul_left _ hq
      have h6 := aligned_eq_mul (2 ^ (k - 1)) c.gtail
      have h7 := aligned_eq_mul (2 ^ (k - 1)) (c.gtail + n)
      have h8 := aligned_le (2 ^ (k - 1)) (c.gtail + n)
      rw [Nat.mul_add, Nat.mul_one] at h5
      omega
    have hA2 : (c.gtail + n) - (c.gtail + n) % 2 ^ (k - 1) =
        c.gtail - c.gtail % 2 ^ (k - 1) + 2 ^ (k - 1) :=
      aligned_eq_of_between _ _ _ (Dvd.dvd.add hA_dvd (dvd_refl _)) hup (by omega)
    refine ⟨?_, ?_, nr_eq, nr_le, ?_, ?_, ?_, ?_, ?_⟩
    · show (1 : Nat) ≤ 1
      omega
    · intro h5
      show 2 ^ (k - 1) ≤ c.gtail + n
      omega
    · intro y hy
      have h5 := r_lb y hy
      show ghead k (c.gtail + n) 1 ≤ y.gr
      unfold ghead at h5 ⊢
      rw [h0, Nat.mul_zero, Nat.sub_zero] at h5
      rw [Nat.mul_one]
      omega
    · intro y hy
      exact le_trans (r_ub y hy) (Nat.le_add_right _ _)
    · intro y hy Lp hLp
      exact le_trans (r_pend y hy Lp hLp) (Nat.le_add_right _ _)
    · intro Lp hLp
      exact absurd (show (none : Option Nat) = some Lp from hLp) (by simp)
    · show c.ncycled = if (1 : Nat) = 0 then 0 else
        (c.readers.countP (cycledP k (c.gtail + n)))
      rw [if_neg (by omega), census, if_pos h0]
      symm
      rw [List.countP_eq_zero]
      intro y hy
      have h5 := r_ub y hy
      unfold cycledP
      simp only [decide_eq_true_eq]
      omega
  · rw [if_neg hcond]
    push_neg at hcond
    have hAeq : (c.gtail + n) - (c.gtail + n) % 2 ^ (k - 1) =
        c.gtail - c.gtail % 2 ^ (k - 1) := by
      rw [aligned_eq_mul, aligned_eq_mul, hcond]
    refine ⟨hs_le, ?_, nr_eq, nr_le, ?_, ?_, ?_, ?_, ?_⟩
    · intro h5
      have h6 := hs_tail h5
      show 2 ^ (k - 1) ≤ c.gtail + n
      omega
    · intro y hy
      have h5 := r_lb y hy
      show ghead k (c.gtail + n) c.hstate ≤ y.gr
      unfold ghead at h5 ⊢
      rcases Nat.le_one_iff_eq_zero_or_eq_one.mp hs_le with h0 | h1
      · rw [h0, Nat.mul_zero] at h5 ⊢
        omega
      · rw [h1, Nat.mul_one] at h5 ⊢
        omega
    · intro y hy
      exact le_trans (r_ub y hy) (Nat.le_add_right _ _)
    · intro y hy Lp hLp
      exact le_trans (r_pend y hy Lp hLp) (Nat.le_add_right _ _)
    · intro Lp hLp
      exact absurd (show (none : Option Nat) = some Lp from hLp) (by simp)
    · show c.ncycled = if c.hstate = 0 then 0 else
        (c.readers.countP (cycledP k (c.gtail + n)))
      have hcp : c.readers.countP (cycledP k (c.gtail + n)) =
          c.readers.countP (cycledP k c.gtail) := by
        refine countP_congr _ _ c.readers ?_
        intro y hy
        unfold cycledP
        rw [hAeq]
      rw [hcp]
      exact census

theorem inv_init (k : Nat) : INV k configInit := by
  refine ⟨?_, ?_, ?_, ?_, ?_, ?_, ?_, ?_, ?_⟩ <;>
    simp [configInit, ghead]

theorem applyOp_inv (k : Nat) (hk : 1 ≤ k) (hk2 : k ≤ 33) (op : Op) (c c2 : Config)
    (h : applyOp k op c = some c2) (hreg2 : c2.gtail < 2 ^ 32) (hI : INV k c) :
    INV k c2 := by
  have hreg : c.gtail < 2 ^ 32 := lt_of_le_of_lt (applyOp_gtail_mono k op c c2 h) hreg2
  cases op with
  | attach =>
    obtain ⟨hg, rfl⟩ := applyOp_attach k c c2 h
    exact inv_attach k hk c hg hI
  | detach i =>
    obtain ⟨x, hx, rfl⟩ := applyOp_detach k i c c2 h
    exact inv_detach k i hk c x hx hreg hI
  | rslice i =>
    obtain ⟨x, hx, rfl⟩ := applyOp_rslice k i c c2 h
    exact inv_rslice k i hk hk2 c x hx hreg hI
  | rcommit i n =>
    obtain ⟨x, L, hx, hp, hn, rfl⟩ := applyOp_rcommit k i n c c2 h
    exact inv_rcommit k i n hk c x L hx hp hn hreg hI
  | wslice =>
    rcases applyOp_wslice k c c2 h with ⟨hg, rfl⟩ | ⟨hg, rfl⟩
    · exact inv_wslice_keep k hk hk2 c hreg hI
    · exact inv_wslice_reset k hk hk2 c hg hreg hI
  | wcommit n =>
    obtain ⟨L, hw, hn, rfl⟩ := applyOp_wcommit k n c c2 h
    exact inv_wcommit k n hk c L hw hn (show c.gtail + n < 2 ^ 32 from hreg2) hI

theorem applyTrace_gtail_mono (k : Nat) : ∀ (ops : List Op) (c c2 : Config),
    applyTrace k ops c = some c2 → c.gtail ≤ c2.gtail := by
  intro ops
  induction ops with
  | nil =>
    intro c c2 h
    simp only [applyTrace, Option.some.injEq] at h
    rw [h]
  | cons op ops ih =>
    intro c c2 h
    simp only [applyTrace] at h
    split at h
    next => exact absurd h (by simp)
    next c1 hc1 => exact le_trans (applyOp_gtail_mono k op c c1 hc1) (ih c1 c2 h)

theorem applyTrace_inv (k : Nat) (hk : 1 ≤ k) (hk2 : k ≤ 33) : ∀ (ops : List Op) (c c2 : Config),
    applyTrace k ops c = some c2 → c2.gtail < 2 ^ 32 → INV k c → INV k c2 := by
  intro ops
  induction ops with
  | nil =>
    intro c c2 h hreg hI
    simp only [applyTrace, Option.some.injEq] at h
    rw [← h]
    exact hI
  | cons op ops ih =>
    intro c c2 h hreg hI
    simp only [applyTrace] at h
    split at h
    next => exact absurd h (by simp)
    next c1 hc1 =>
      have hmono := applyTrace_gtail_mono k ops c1 c2 h
      exact ih c1 c2 h hreg (applyOp_inv k hk hk2 op c c1 hc1 (by omega) hI)

theorem reach_inv (k : Nat) (hk : 1 ≤ k) (hk2 : k ≤ 33) (c : Config)
    (h : Reach k c) (hreg : c.gtail < 2 ^ 32) : INV k c := by
  obtain ⟨ops, hops⟩ := h
  exact applyTrace_inv k hk hk2 ops configInit c hops hreg (inv_init k)

theorem brdct_writer_commit_tail (k : Nat) (b : Broadcast) (n : Nat) :
    (brdct_writer_commit k b n).tail = (b.tail + n) % 2 ^ 33 := by
  by_cases h : ((b.tail + n) % 2 ^ 33) / 2 ^ (k - 1) ≠ b.tail / 2 ^ (k - 1)
  · simp only [brdct_writer_commit, if_pos h]
  · simp only [brdct_writer_commit, if_neg h]

/-- C1: in its stated generality the no-overwrite property fails (see the
counterexample at tail past 2^32); it does hold on the producer's first
2^32 positions: in every reachable configuration with gtail < 2^32, the
machine difference tail - r that brdct_reader_slice would compute for any
attached reader is below the capacity 2^k, and while the slice-time hstate
is 1, fully committing the slice returned by brdct_writer_slice leaves
tail >> (k-1) unchanged. -/
theorem brdct_no_overwrite (k : Nat) (hk : 1 ≤ k) (hk2 : k ≤ 33) :
    (∀ c, Reach k c → c.gtail < 2 ^ 32 → ∀ x ∈ c.readers,
      (2 ^ 64 + (machineB c).tail - x.gr % 2 ^ 32) % 2 ^ 64 < 2 ^ k) ∧
    (∀ b : Broadcast, b.tail < 2 ^ 33 → b.hstate ≤ 1 →
      (brdct_writer_slice k b).1.hstate = 1 →
      (brdct_writer_commit k (brdct_writer_slice k b).1
          (brdct_writer_slice k b).2.len).tail / 2 ^ (k - 1)
        = (brdct_writer_slice k b).1.tail / 2 ^ (k - 1)) := by
  have hH : 0 < 2 ^ (k - 1) := Nat.pos_pow_of_pos _ (by norm_num)
  have hC2H : 2 ^ k = 2 * 2 ^ (k - 1) := by
    rw [← pow_succ']
    congr 1
    omega
  constructor
  · intro c hR hreg x hx
    obtain ⟨hs_le, hs_tail, nr_eq, nr_le, r_lb, r_ub, r_pend, w_pend, census⟩ :=
      reach_inv k hk hk2 c hR hreg
    obtain ⟨hf1, hf2, hf3, hf4⟩ := inv_facts k hk c hs_le hs_tail
    have hxle : x.gr ≤ c.gtail := r_ub x hx
    have hxlb : ghead k c.gtail c.hstate ≤ x.gr := r_lb x hx
    show (2 ^ 64 + c.gtail % 2 ^ 33 - x.gr % 2 ^ 32) % 2 ^ 64 < 2 ^ k
    rw [Nat.mod_eq_of_lt (show c.gtail < 2 ^ 33 by omega),
      Nat.mod_eq_of_lt (show x.gr < 2 ^ 32 by omega),
      wrap_eval _ _ _ hxle (by omega)]
    omega
  · intro b htail hhs h1
    have htl : (brdct_writer_slice k b).1.tail = b.tail := by
      rw [brdct_writer_slice_fst]
      split <;> rfl
    have hsnd := brdct_writer_slice_snd k b
    obtain ⟨hlen, -, -, -, -⟩ := wslice_of_char k b.tail 1 hk hk2 htail (le_refl 1)
    have hm := Nat.mod_lt b.tail hH
    have hmle := Nat.mod_le b.tail (2 ^ (k - 1))
    have hA_dvd : 2 ^ (k - 1) ∣ b.tail - b.tail % 2 ^ (k - 1) := aligned_dvd _ _
    have hdvd33 : 2 ^ (k - 1) ∣ 2 ^ 33 := pow_dvd_pow 2 (by omega)
    have hAH : b.tail - b.tail % 2 ^ (k - 1) + 2 ^ (k - 1) ≤ 2 ^ 33 :=
      dvd_add_le _ _ _ hA_dvd hdvd33 (by omega)
    rw [brdct_writer_commit_tail, htl, hsnd, h1, hlen]
    rw [Nat.mod_eq_of_lt (show b.tail +
      (2 ^ k - 1 - (2 ^ (k - 1) * 1 + b.tail % 2 ^ (k - 1))) < 2 ^ 33 by omega)]
    have hbet := aligned_eq_of_between (2 ^ (k - 1)) (b.tail - b.tail % 2 ^ (k - 1))
      (b.tail + (2 ^ k - 1 - (2 ^ (k - 1) * 1 + b.tail % 2 ^ (k - 1))))
      hA_dvd (by omega) (by omega)
    exact ((div_eq_div_iff_aligned _ _ _ hH (Nat.le_add_right _ _)).mpr (by omega)).symm

/-- C1 counterexample: cfg9 is reachable at caplg2 = 32 through the
contract-respecting trace9, yet its single fully caught-up reader has
machine difference tail - r equal to 2^32 = C, refuting the claimed
invariant tail - r < C beyond the first 2^32 produced positions. -/
theorem brdct_overwrite_at_tail_wrap_cex :
    Reach 32 cfg9 ∧ ∃ x, x ∈ cfg9.readers ∧
      ¬ ((2 ^ 64 + (machineB cfg9).tail - x.gr % 2 ^ 32) % 2 ^ 64 < 2 ^ 32) :=
  ⟨⟨trace9, by decide⟩, ⟨{ gr := 2 ^ 32 + 2 ^ 31 - 1, pend := none }, by decide, by decide⟩⟩

theorem brdct_no_overwrite_witness :
    (2 ^ 64 + (machineB cfgA).tail - (0 : Nat) % 2 ^ 32) % 2 ^ 64 < 2 ^ 3 ∧
    (brdct_writer_commit 3 (brdct_writer_slice 3 ⟨5, 1, 0, 1⟩).1
        (brdct_writer_slice 3 ⟨5, 1, 0, 1⟩).2.len).tail / 2 ^ 2
      = (brdct_writer_slice 3 ⟨5, 1, 0, 1⟩).1.tail / 2 ^ 2 :=
  ⟨(brdct_no_overwrite 3 (by decide) (by decide)).1 cfgA ⟨[Op.attach], by decide⟩
      (by decide) { gr := 0, pend := none } (by decide),
   (brdct_no_overwrite 3 (by decide) (by decide)).2 ⟨5, 1, 0, 1⟩ (by decide) (by decide)
      (by decide)⟩

/-- C2: in its stated generality census consistency fails (see the
counterexample at tail past 2^32); it does hold on the producer's first
2^32 positions: every reachable configuration with gtail < 2^32 satisfies
ncycled <= nreaders, and ncycled = 0 whenever hstate = 0. -/
theorem brdct_census_consistent (k : Nat) (hk : 1 ≤ k) (hk2 : k ≤ 33) (c : Config)
    (h : Reach k c) (hreg : c.gtail < 2 ^ 32) :
    c.ncycled ≤ c.nreaders ∧ (c.hstate = 0 → c.ncycled = 0) := by
  obtain ⟨hs_le, hs_tail, nr_eq, nr_le, r_lb, r_ub, r_pend, w_pend, census⟩ :=
    reach_inv k hk hk2 c h hreg
  constructor
  · rw [census, nr_eq]
    split
    · exact Nat.zero_le _
    · exact List.countP_le_length _
  · intro h0
    rw [census, if_pos h0]

/-- C2 counterexample: cfg12 is reachable at caplg2 = 32 through the
contract-respecting trace12, yet it has hstate = 0 with ncycled = 1: the
spurious reader-commit crossing caused by the 33-bit tail versus 32-bit
Reader width mismatch breaks the census once tail passes 2^32. -/
theorem brdct_census_broken_cex :
    Reach 32 cfg12 ∧ cfg12.hstate = 0 ∧ cfg12.ncycled ≠ 0 :=
  ⟨⟨trace12, by decide⟩, by decide, by decide⟩

theorem brdct_census_consistent_witness :
    cfgA.ncycled ≤ cfgA.nreaders ∧ (cfgA.hstate = 0 → cfgA.ncycled = 0) :=
  brdct_census_consistent 3 (by decide) (by decide) cfgA ⟨[Op.attach], by decide⟩
    (by decide)

end Common
